import Mathlib

/-!
Verification of the vend-hub product-matching prototype
(`src/prototype/src/matcher.ts`) against its specification.

The TypeScript source is shallowly embedded: JavaScript numbers are
modelled as rationals (`ℚ`), strings as `String` / `List Char`,
`undefined`-able values as `Option`, and the `throw` in `matchProducts`
as `Except`.  JavaScript truthiness tests (`!x`, `Boolean(x && y)`) on
strings and numbers are modelled explicitly: the empty string and the
number 0 are falsy.  Regular-expression global replacement is modelled
by an explicit leftmost scan.  The debug-tracing branch of the matcher
(guarded by `process.env.DEBUG_MATCHES`) only prints and never affects
the result; it is omitted.  The opaque `features`/`raw`/`extra` bags
carry no structure any property touches and are omitted from the
record types.
-/

namespace VendHub

/- The rational operations of the standard library are sealed against
unfolding; re-open them so that concrete runs of the embedded code can
be checked by `decide`. -/
attribute [local semireducible] Rat.add Rat.mul Rat.inv Rat.sub Rat.ofScientific

/-! ### Character helpers

JavaScript `\s` (for the ASCII range relevant here) and `toLowerCase`.
-/

/-- Whitespace as matched by the JavaScript `\s` class, restricted to the
ASCII whitespace characters that can actually occur in the data. -/
def isWsChar (c : Char) : Bool :=
  c = ' ' || c = '\t' || c = '\n' || c = '\r'

/-- ASCII lower-casing, the effect of `String.prototype.toLowerCase` on the
ASCII range. -/
def asciiLower (c : Char) : Char :=
  if 'A' ≤ c ∧ c ≤ 'Z' then Char.ofNat (c.toNat + 32) else c

/-- Lower-case every character of a string (as a character list). -/
def lowerList (l : List Char) : List Char :=
  l.map asciiLower

/-! ### Generic leftmost global replacement

Models `String.prototype.replace` with a global regex: scan left to
right, at each position try the (deterministic) matcher; on a match emit
the replacement and continue after the matched text, otherwise keep the
character and move one position right.  Fuel makes the definition
structurally recursive (so that it reduces inside `decide`); every
matcher used consumes at least one character, so fuel `l.length`
is always enough. -/
def gReplF (f : List Char → Option (List Char)) (repl : List Char) :
    Nat → List Char → List Char
  | 0, l => l
  | _ + 1, [] => []
  | fuel + 1, c :: cs =>
    match f (c :: cs) with
    | some rest => repl ++ gReplF f repl fuel rest
    | none => c :: gReplF f repl fuel cs

/-- Global replacement of every leftmost match of `f` by `repl`. -/
def gRepl (f : List Char → Option (List Char)) (repl : List Char)
    (l : List Char) : List Char :=
  gReplF f repl l.length l

/-- Matcher for the regex `fl\.?\s*oz`: literal `fl`, an optional dot, any
run of whitespace, then literal `oz`.  Returns the remainder after the
match.  The regex is deterministic here: `\s*` must take the maximal
whitespace run (no whitespace character is `o`), and if a dot is present
the branch without it cannot match either. -/
def flOzMatch : List Char → Option (List Char)
  | 'f' :: 'l' :: rest =>
    match (if rest.head? = some '.' then rest.tail else rest).dropWhile isWsChar with
    | 'o' :: 'z' :: r => some r
    | _ => none
  | _ => none

/-- Matcher for the regex `ounces?` (greedy optional `s`). -/
def ounceMatch : List Char → Option (List Char)
  | 'o' :: 'u' :: 'n' :: 'c' :: 'e' :: rest =>
    if rest.head? = some 's' then some rest.tail else some rest
  | _ => none

/-- Matcher for the regex `oz\.`. -/
def ozDotMatch : List Char → Option (List Char)
  | 'o' :: 'z' :: '.' :: rest => some rest
  | _ => none

/-- Collapse every maximal run of `' '` characters to a single `' '`
(used after whitespace has been mapped to `' '`). -/
def squeeze : List Char → List Char
  | [] => []
  | [c] => [c]
  | a :: b :: rest =>
    if a = ' ' ∧ b = ' ' then squeeze (b :: rest) else a :: squeeze (b :: rest)

/-- Turn each whitespace character into a plain space. -/
def mapWsToSpace (l : List Char) : List Char :=
  l.map fun c => if isWsChar c then ' ' else c

/-- The effect of `replace(/\s+/g, " ")`: turn each whitespace character
into a space, then collapse runs of spaces. -/
def collapseWs (l : List Char) : List Char :=
  squeeze (mapWsToSpace l)

/-- Drop leading whitespace. -/
def trimLeft (l : List Char) : List Char :=
  l.dropWhile isWsChar

/-- The effect of `String.prototype.trim`: drop whitespace at both ends. -/
def trimWs (l : List Char) : List Char :=
  trimLeft (trimLeft l.reverse).reverse

/-- Is `c` an ASCII lower-case letter or digit (the class `[a-z0-9]`)? -/
def isLowerAlnum (c : Char) : Bool :=
  ('a' ≤ c && c ≤ 'z') || ('0' ≤ c && c ≤ '9')

/-- Replace each hyphen by a space. -/
def stripDashes (l : List Char) : List Char :=
  l.map fun c => if c = '-' then ' ' else c

/-- Replace each character outside the class `[a-z0-9\s]` by a space. -/
def stripNonAlnum (l : List Char) : List Char :=
  l.map fun c => if isLowerAlnum c || isWsChar c then c else ' '

/-- Source `normalizeName`, on character lists.  Mirrors the source chain:
lower-case; replace the regexes `fl\.?\s*oz`, `ounces?` and `oz\.` by
`oz` (three global passes, in this order); replace each hyphen by a
space; replace each character outside `[a-z0-9\s]` by a space; collapse
whitespace runs to single spaces; trim. -/
def normalizeNameL (l : List Char) : List Char :=
  trimWs (collapseWs (stripNonAlnum (stripDashes
    (gRepl ozDotMatch ['o', 'z']
      (gRepl ounceMatch ['o', 'z']
        (gRepl flOzMatch ['o', 'z'] (lowerList l)))))))

/-- Source `normalizeName` on strings. -/
def normalizeName (value : String) : String :=
  (normalizeNameL value.toList).asString

/-- Does any position of `l` start a match of `f`?  (Scanning version of
"the regex has an occurrence".) -/
def hasMatch (f : List Char → Option (List Char)) : List Char → Bool
  | [] => (f []).isSome
  | c :: cs => (f (c :: cs)).isSome || hasMatch f cs

/-- Occurrence test for the `fl\.?\s*oz` pattern. -/
def hasFlOz (l : List Char) : Bool :=
  hasMatch flOzMatch l

/-! ### Truthiness

JavaScript truthiness of the optional string and number fields:
`undefined`, the empty string and the number 0 are falsy. -/

/-- Truthiness of an optional string (`Boolean(s)`). -/
def strTruthy : Option String → Bool
  | none => false
  | some s => s ≠ ""

/-- Truthiness of an optional number (`Boolean(x)`); 0 is falsy. -/
def numTruthy : Option ℚ → Bool
  | none => false
  | some x => x ≠ 0

/-! ### Brand tables and brand extraction -/

/-- The `BRAND_SYNONYMS` lookup table. -/
def brandSynonym (s : String) : Option String :=
  if s = "coke" then some "coca cola"
  else if s = "coca-cola" then some "coca cola"
  else if s = "coca" then some "coca cola"
  else if s = "coca cola" then some "coca cola"
  else if s = "diet coke" then some "diet coca cola"
  else if s = "coca-cola diet" then some "diet coca cola"
  else if s = "diet coca cola" then some "diet coca cola"
  else if s = "coca cola diet" then some "diet coca cola"
  else if s = "pepsi cola" then some "pepsi"
  else if s = "pepsi-cola" then some "pepsi"
  else if s = "redbull" then some "red bull"
  else if s = "redbull energy" then some "red bull"
  else if s = "redbull energy drink" then some "red bull"
  else if s = "red bull" then some "red bull"
  else if s = "snickers" then some "snickers"
  else if s = "lays" then some "lays"
  else if s = "doritos" then some "doritos"
  else if s = "aquafina" then some "aquafina"
  else if s = "dasani" then some "dasani"
  else none

/-- The keys of `BRAND_SYNONYMS` sorted by descending length (the stable
sort performed at the top of `extractBrand`). -/
def synonymKeysByLength : List String :=
  ["redbull energy drink",
   "coca-cola diet", "diet coca cola", "coca cola diet", "redbull energy",
   "pepsi cola", "pepsi-cola",
   "coca-cola", "coca cola", "diet coke",
   "red bull", "snickers", "aquafina",
   "redbull", "doritos",
   "dasani",
   "coke", "coca", "lays"]

/-- Source `canonicalizeBrand`: `undefined` and the empty string map to
`undefined`; otherwise lower-case and trim, then fold through the
synonym table. -/
def canonicalizeBrand (brand : Option String) : Option String :=
  match brand with
  | none => none
  | some b =>
    if b = "" then none
    else
      let lower := (trimWs (lowerList b.toList)).asString
      match brandSynonym lower with
      | some v => some v
      | none => some lower

/-- Separator class of the token split in `extractBrand` (regex `[\s,]+`). -/
def isSepChar (c : Char) : Bool :=
  isWsChar c || c = ','

/-- Split on runs of separators and drop empty pieces
(`split(/[\s,]+/).filter(Boolean)`). -/
def splitTokensAux : List Char → List Char → List (List Char)
  | [], cur => if cur.isEmpty then [] else [cur.reverse]
  | c :: cs, cur =>
    if isSepChar c then
      if cur.isEmpty then splitTokensAux cs []
      else cur.reverse :: splitTokensAux cs []
    else splitTokensAux cs (c :: cur)

/-- Tokens of a (lower-cased) raw name, split on whitespace and commas. -/
def splitTokens (l : List Char) : List (List Char) :=
  splitTokensAux l []

/-- The token loop of `extractBrand`: return the first token whose
canonicalized form is truthy. -/
def brandLoop : List (List Char) → Option String
  | [] => none
  | t :: ts =>
    match canonicalizeBrand (some t.asString) with
    | some c => if c ≠ "" then some c else brandLoop ts
    | none => brandLoop ts

/-- Source `extractBrand`: scan the lower-cased raw name for the longest
synonym key occurring as a substring; otherwise split into tokens and
return the first canonicalizable token, falling back to the first token
verbatim; `undefined` when there are no tokens. -/
def extractBrand (rawName : String) : Option String :=
  match synonymKeysByLength.find?
      (fun key => decide (key.toList <:+: lowerList rawName.toList)) with
  | some key => brandSynonym key
  | none =>
    if (splitTokens (lowerList rawName.toList)).isEmpty then none
    else
      match brandLoop (splitTokens (lowerList rawName.toList)) with
      | some c => some c
      | none => (splitTokens (lowerList rawName.toList)).head?.map List.asString

/-! ### Data model -/

/-- Canonical entity (`NormalizedProduct`).  The opaque `features` and
`raw` bags are omitted; no scoring code reads them. -/
structure NormalizedProduct where
  source : String
  sourceId : String
  rawName : String
  normalizedName : String
  tokens : List String
  brand : Option String
  sizeOz : Option ℚ
  sizeLabel : Option String
  price : Option ℚ
  category : Option String
  isDiet : Bool
  scancode : Option String
deriving DecidableEq

/-- Per-attribute similarity scores (`FeatureScores`). -/
structure FeatureScores where
  upc : ℚ
  name : ℚ
  brand : ℚ
  size : ℚ
  category : ℚ
  price : ℚ
  dietPenalty : ℚ
deriving DecidableEq

/-- Decision label of a match record. -/
inductive Decision where
  | auto
  | review
deriving DecidableEq

/-- Projected entity (`ProductSummary`); the `extra` bag is omitted. -/
structure ProductSummary where
  source : String
  sourceId : String
  name : String
  brand : Option String
  sizeOz : Option ℚ
  sizeLabel : Option String
  price : Option ℚ
  category : Option String
  scancode : Option String
deriving DecidableEq

/-- A classified match (`MatchRecord`). -/
structure MatchRecord where
  productA : ProductSummary
  productB : ProductSummary
  confidence : ℚ
  decision : Decision
  featureScores : FeatureScores
deriving DecidableEq

/-- The overall result (`MatchResult`). -/
structure MatchResult where
  «matches» : List MatchRecord
  unmatchedA : List ProductSummary
  unmatchedB : List ProductSummary
deriving DecidableEq

/-- Threshold configuration (`MatchOptions`). -/
structure MatchOptions where
  autoAcceptThreshold : ℚ
  reviewThreshold : ℚ
deriving DecidableEq

/-- A `Partial<MatchOptions>` argument: each field may be absent. -/
structure PartialMatchOptions where
  autoAcceptThreshold : Option ℚ := none
  reviewThreshold : Option ℚ := none
deriving DecidableEq

/-- The `DEFAULT_OPTIONS` constant. -/
def defaultOptions : MatchOptions :=
  { autoAcceptThreshold := 82/100, reviewThreshold := 3/5 }

/-- The spread `{ ...DEFAULT_OPTIONS, ...options }`. -/
def resolveOptions (options : PartialMatchOptions) : MatchOptions :=
  { autoAcceptThreshold :=
      options.autoAcceptThreshold.getD defaultOptions.autoAcceptThreshold,
    reviewThreshold :=
      options.reviewThreshold.getD defaultOptions.reviewThreshold }

/-! ### Numeric helpers -/

/-- Source `clamp`. -/
def clamp (value mn mx : ℚ) : ℚ :=
  min mx (max mn value)

/-- Source `round` at its default 2 decimals:
`Math.round(value * 100) / 100`, where `Math.round x = ⌊x + 1/2⌋`. -/
def round2 (value : ℚ) : ℚ :=
  ((⌊value * 100 + 1/2⌋ : ℤ) : ℚ) / 100

/-! ### Feature scorers -/

/-- Source `scoreUPC`: both scancodes truthy and textually identical. -/
def scoreUPC (a b : NormalizedProduct) : ℚ :=
  if ¬ strTruthy a.scancode ∨ ¬ strTruthy b.scancode then 0
  else if a.scancode = b.scancode then 1
  else 0

/-- Source `scoreNameTokens`: token Jaccard overlap.  The intersection
count follows the source exactly: it counts elements of `tokensA`
(with multiplicity) that occur in `tokensB`; the union size is the
number of distinct tokens. -/
def scoreNameTokens (tokensA tokensB : List String) : ℚ :=
  if tokensA.isEmpty || tokensB.isEmpty then 0
  else
    let intersectionSize := (tokensA.filter fun t => tokensB.contains t).length
    let unionSize := (tokensA ++ tokensB).dedup.length
    if unionSize = 0 then 0
    else (intersectionSize : ℚ) / (unionSize : ℚ)

/-- Consecutive character pairs of a string. -/
def bigramPairs : List Char → List (Char × Char)
  | a :: b :: rest => (a, b) :: bigramPairs (b :: rest)
  | _ => []

/-- Source `buildBigrams`: collapse whitespace, trim, then list the
character bigrams (none when fewer than 2 characters remain). -/
def buildBigrams (value : String) : List (Char × Char) :=
  let sanitized := trimWs (collapseWs value.toList)
  if sanitized.length < 2 then [] else bigramPairs sanitized

/-- Occurrence count of a bigram (the `Map` of `countOccurrences`). -/
def bigramCount (g : Char × Char) (l : List (Char × Char)) : Nat :=
  @List.count (Char × Char) instBEqOfDecidableEq g l

/-- The shared-bigram count of `scoreCharacterBigram`: per distinct gram
of `gramsA`, the minimum of the two multiplicities. -/
def intersectionBigrams (gramsA gramsB : List (Char × Char)) : Nat :=
  (gramsA.dedup.map fun g => min (bigramCount g gramsA) (bigramCount g gramsB)).sum

/-- Source `scoreCharacterBigram`: bigram Dice coefficient with
multiplicities. -/
def scoreCharacterBigram (a b : String) : ℚ :=
  let gramsA := buildBigrams a
  let gramsB := buildBigrams b
  if gramsA.isEmpty || gramsB.isEmpty then 0
  else (2 * (intersectionBigrams gramsA gramsB : ℚ)) /
    ((gramsA.length : ℚ) + (gramsB.length : ℚ))

/-- Source `scoreNameSimilarity`: maximum of token Jaccard and bigram
Dice. -/
def scoreNameSimilarity (a b : NormalizedProduct) : ℚ :=
  max (scoreNameTokens a.tokens b.tokens)
    (scoreCharacterBigram a.normalizedName b.normalizedName)

/-- Source `scoreBrand`: tiered brand comparison. -/
def scoreBrand (brandA brandB : Option String) : ℚ :=
  if ¬ strTruthy brandA ∧ ¬ strTruthy brandB then 0
  else if ¬ strTruthy brandA ∨ ¬ strTruthy brandB then 1/5
  else if brandA = brandB then 1
  else if canonicalizeBrand brandA = canonicalizeBrand brandB then 7/10
  else 0

/-- Source `scoreSize`: steep linear penalty on the relative difference.
A falsy size on either side (absent or 0) scores 0. -/
def scoreSize (sizeA sizeB : Option ℚ) : ℚ :=
  if ¬ numTruthy sizeA ∨ ¬ numTruthy sizeB then 0
  else
    let a := sizeA.getD 0
    let b := sizeB.getD 0
    let diff := |a - b|
    let mx := max a b
    let normalizedDiff := diff / mx
    clamp (max 0 (1 - normalizedDiff * (3/2))) 0 1

/-- Substring test (`String.prototype.includes`). -/
def strIncludes (s sub : String) : Bool :=
  decide (sub.toList <:+: s.toList)

/-- Source `canonicalizeCategory`: coarse keyword buckets, else the
lower-cased value. -/
def canonicalizeCategory (value : Option String) : Option String :=
  match value with
  | none => none
  | some v =>
    if v = "" then none
    else
      let normalized := (lowerList v.toList).asString
      if strIncludes normalized "soda" || strIncludes normalized "cola" then
        some "beverage soda"
      else if strIncludes normalized "water" then some "beverage water"
      else if strIncludes normalized "energy" then some "beverage energy"
      else if strIncludes normalized "chips" then some "snack chips"
      else if strIncludes normalized "candy" || strIncludes normalized "chocolate" then
        some "snack candy"
      else some normalized

/-- The `split(" ")[0]` of `scoreCategory`: the text before the first
space. -/
def firstWord (s : String) : String :=
  (s.toList.takeWhile fun c => c ≠ ' ').asString

/-- Source `scoreCategory`. -/
def scoreCategory (categoryA categoryB : Option String) : ℚ :=
  if ¬ strTruthy categoryA ∧ ¬ strTruthy categoryB then 0
  else if ¬ strTruthy categoryA ∨ ¬ strTruthy categoryB then 1/5
  else
    let normalizedA := canonicalizeCategory categoryA
    let normalizedB := canonicalizeCategory categoryB
    if normalizedA = normalizedB then 1
    else if strTruthy normalizedA ∧ strTruthy normalizedB ∧
        normalizedA.map firstWord = normalizedB.map firstWord then 3/5
    else 0

/-- Source `scoreNumericSimilarity`. -/
def scoreNumericSimilarity (a b : Option ℚ) (tolerance : ℚ) : ℚ :=
  match a, b with
  | none, _ => 0
  | _, none => 0
  | some x, some y =>
    if x = 0 ∧ y = 0 then 1
    else if x = 0 ∨ y = 0 then 0
    else
      let diff := |x - y|
      let avg := (x + y) / 2
      if avg = 0 then 0
      else
        let ratio := diff / avg
        if ratio ≤ tolerance then 1 - ratio / tolerance
        else 0

/-- Source `scoreDietPenalty`. -/
def scoreDietPenalty (aIsDiet bIsDiet : Bool) : ℚ :=
  if aIsDiet = bIsDiet then 0 else 1

/-- Source `computeFeatureScores`. -/
def computeFeatureScores (a b : NormalizedProduct) : FeatureScores :=
  { upc := scoreUPC a b
    name := scoreNameSimilarity a b
    brand := scoreBrand a.brand b.brand
    size := scoreSize a.sizeOz b.sizeOz
    category := scoreCategory a.category b.category
    price := scoreNumericSimilarity a.price b.price (1/4)
    dietPenalty := scoreDietPenalty a.isDiet b.isDiet }

/-! ### Confidence aggregation -/

/-- Source `isLikelyUPC`: defined, digits only, 8 to 14 characters. -/
def isLikelyUPC (value : Option String) : Bool :=
  match value with
  | none => false
  | some s =>
    s.toList.all (fun c => c.isDigit) && 8 ≤ s.toList.length && s.toList.length ≤ 14

/-- Availability of the identifier attribute. -/
def upcAvailable (a b : NormalizedProduct) : Bool :=
  isLikelyUPC a.scancode && isLikelyUPC b.scancode

/-- Availability of the brand attribute (`Boolean(a.brand && b.brand)`). -/
def brandAvailable (a b : NormalizedProduct) : Bool :=
  strTruthy a.brand && strTruthy b.brand

/-- Availability of the size attribute (`Boolean(a.sizeOz && b.sizeOz)`);
a size of 0 is falsy and hence unavailable. -/
def sizeAvailable (a b : NormalizedProduct) : Bool :=
  numTruthy a.sizeOz && numTruthy b.sizeOz

/-- Availability of the category attribute. -/
def categoryAvailable (a b : NormalizedProduct) : Bool :=
  strTruthy a.category && strTruthy b.category

/-- Availability of the price attribute
(`typeof price === "number"` on both sides); a price of 0 is available. -/
def priceAvailable (a b : NormalizedProduct) : Bool :=
  a.price.isSome && b.price.isSome

/-- One entry of the `components` array of `computeConfidence`. -/
structure Component where
  score : ℚ
  weight : ℚ
  available : Bool
deriving DecidableEq

/-- The `components` array of `computeConfidence`. -/
def confidenceComponents (scores : FeatureScores) (a b : NormalizedProduct) :
    List Component :=
  [⟨scores.upc, 1/4, upcAvailable a b⟩,
   ⟨scores.name, 1/4, true⟩,
   ⟨scores.brand, 1/5, brandAvailable a b⟩,
   ⟨scores.size, 1/5, sizeAvailable a b⟩,
   ⟨scores.category, 1/20, categoryAvailable a b⟩,
   ⟨scores.price, 1/20, priceAvailable a b⟩]

/-- The `weightSum` reduce of `computeConfidence`. -/
def weightSum (comps : List Component) : ℚ :=
  comps.foldl (fun sum c => if c.available then sum + c.weight else sum) 0

/-- The `weightedScore` reduce of `computeConfidence`. -/
def weightedScore (comps : List Component) : ℚ :=
  comps.foldl (fun sum c => if c.available then sum + c.score * c.weight else sum) 0

/-- Source `computeConfidence`. -/
def computeConfidence (scores : FeatureScores) (a b : NormalizedProduct) : ℚ :=
  let comps := confidenceComponents scores a b
  let ws := weightSum comps
  if ws = 0 then 0
  else clamp (weightedScore comps / ws - scores.dietPenalty * (1/20)) 0 1

/-! ### Matcher -/

/-- Source `summarizeProduct`. -/
def summarizeProduct (product : NormalizedProduct) : ProductSummary :=
  { source := product.source
    sourceId := product.sourceId
    name := product.rawName
    brand := product.brand
    sizeOz := product.sizeOz
    sizeLabel := product.sizeLabel
    price := product.price
    category := product.category
    scancode := product.scancode }

/-- Source `mapScores`: round every score for presentation. -/
def mapScores (scores : FeatureScores) : FeatureScores :=
  { upc := round2 scores.upc
    name := round2 scores.name
    brand := round2 scores.brand
    size := round2 scores.size
    category := round2 scores.category
    price := round2 scores.price
    dietPenalty := round2 scores.dietPenalty }

/-- The running best candidate of the inner loop of `matchProducts`. -/
structure Cand where
  product : NormalizedProduct
  conf : ℚ
  scores : FeatureScores
deriving DecidableEq

/-- One step of the inner loop of `matchProducts`, including the early
performance skip (`confidence < reviewThreshold * 0.65`). -/
def considerB (opts : MatchOptions) (a : NormalizedProduct)
    (best : Option Cand) (b : NormalizedProduct) : Option Cand :=
  let scores := computeFeatureScores a b
  let confidence := computeConfidence scores a b
  if confidence < opts.reviewThreshold * (13/20) then best
  else
    match best with
    | none => some ⟨b, confidence, scores⟩
    | some c => if confidence > c.conf then some ⟨b, confidence, scores⟩ else best

/-- The inner loop of `matchProducts`: the best candidate in `bs` for `a`. -/
def bestMatchFor (opts : MatchOptions) (a : NormalizedProduct)
    (bs : List NormalizedProduct) : Option Cand :=
  bs.foldl (considerB opts a) none

/-- The per-A-entity tail of the outer loop: `none` when the entity joins
`unmatchedA`, otherwise the produced `MatchRecord`. -/
def classifyA (opts : MatchOptions) (a : NormalizedProduct)
    (bs : List NormalizedProduct) : Option MatchRecord :=
  match bestMatchFor opts a bs with
  | none => none
  | some c =>
    if c.conf < opts.reviewThreshold then none
    else
      some
        { productA := summarizeProduct a
          productB := summarizeProduct c.product
          confidence := round2 c.conf
          decision :=
            if c.conf ≥ opts.autoAcceptThreshold then Decision.auto
            else Decision.review
          featureScores := mapScores c.scores }

/-- The body of `matchProducts` after option validation. -/
def matchCore (productsA productsB : List NormalizedProduct)
    (opts : MatchOptions) : MatchResult :=
  let «matches» := productsA.filterMap fun a => classifyA opts a productsB
  let unmatchedA :=
    (productsA.filter fun a => (classifyA opts a productsB).isNone).map
      summarizeProduct
  let matchedBIds := «matches».map fun m => m.productB.sourceId
  let unmatchedB :=
    (productsB.filter fun b => ¬ matchedBIds.contains b.sourceId).map
      summarizeProduct
  { «matches» := «matches», unmatchedA := unmatchedA, unmatchedB := unmatchedB }

/-- Source `matchProducts`: validate the resolved options (throwing is
modelled by `Except.error`), then run the matching loops. -/
def matchProducts (productsA productsB : List NormalizedProduct)
    (options : PartialMatchOptions := {}) : Except String MatchResult :=
  let resolvedOptions := resolveOptions options
  if resolvedOptions.reviewThreshold > resolvedOptions.autoAcceptThreshold then
    Except.error "reviewThreshold must be <= autoAcceptThreshold"
  else
    Except.ok (matchCore productsA productsB resolvedOptions)

/-! ### Reference matcher without the early skip (for the refinement
claim): identical except that the inner loop never skips a pair. -/

/-- One step of the inner loop with the performance skip removed. -/
def considerBNoSkip (a : NormalizedProduct)
    (best : Option Cand) (b : NormalizedProduct) : Option Cand :=
  let scores := computeFeatureScores a b
  let confidence := computeConfidence scores a b
  match best with
  | none => some ⟨b, confidence, scores⟩
  | some c => if confidence > c.conf then some ⟨b, confidence, scores⟩ else best

/-- Best candidate without the skip: strictly highest confidence,
first-seen wins on ties. -/
def bestMatchForNoSkip (a : NormalizedProduct)
    (bs : List NormalizedProduct) : Option Cand :=
  bs.foldl (considerBNoSkip a) none

/-- Per-A-entity outcome without the skip. -/
def classifyANoSkip (opts : MatchOptions) (a : NormalizedProduct)
    (bs : List NormalizedProduct) : Option MatchRecord :=
  match bestMatchForNoSkip a bs with
  | none => none
  | some c =>
    if c.conf < opts.reviewThreshold then none
    else
      some
        { productA := summarizeProduct a
          productB := summarizeProduct c.product
          confidence := round2 c.conf
          decision :=
            if c.conf ≥ opts.autoAcceptThreshold then Decision.auto
            else Decision.review
          featureScores := mapScores c.scores }

/-- The matcher body with the skip removed. -/
def matchCoreNoSkip (productsA productsB : List NormalizedProduct)
    (opts : MatchOptions) : MatchResult :=
  let «matches» := productsA.filterMap fun a => classifyANoSkip opts a productsB
  let unmatchedA :=
    (productsA.filter fun a => (classifyANoSkip opts a productsB).isNone).map
      summarizeProduct
  let matchedBIds := «matches».map fun m => m.productB.sourceId
  let unmatchedB :=
    (productsB.filter fun b => ¬ matchedBIds.contains b.sourceId).map
      summarizeProduct
  { «matches» := «matches», unmatchedA := unmatchedA, unmatchedB := unmatchedB }

/-- The whole matcher with the skip removed. -/
def matchProductsNoSkip (productsA productsB : List NormalizedProduct)
    (options : PartialMatchOptions := {}) : Except String MatchResult :=
  let resolvedOptions := resolveOptions options
  if resolvedOptions.reviewThreshold > resolvedOptions.autoAcceptThreshold then
    Except.error "reviewThreshold must be <= autoAcceptThreshold"
  else
    Except.ok (matchCoreNoSkip productsA productsB resolvedOptions)

/-! ### Derived notions used by the statements -/

/-- The confidence the matcher computes for one pair. -/
def confOf (a b : NormalizedProduct) : ℚ :=
  computeConfidence (computeFeatureScores a b) a b

/-- Number of `auto` decisions in a result. -/
def countAuto (res : MatchResult) : Nat :=
  res.matches.countP fun m => decide (m.decision = Decision.auto)

/-- The match list of a possibly-failed run (empty on error). -/
def resultMatches : Except String MatchResult → List MatchRecord
  | Except.ok res => res.matches
  | Except.error _ => []

/-- The identifiers of the B sides of the produced match records. -/
def matchedBIdsOf (res : MatchResult) : List String :=
  res.matches.map fun m => m.productB.sourceId

/-- The identifiers of the unmatched-B summaries. -/
def unmatchedBIdsOf (res : MatchResult) : List String :=
  res.unmatchedB.map fun s => s.sourceId

/-! ### Spec-side formulation of the confidence aggregation -/

/-- Availability-weighted average over score-weight-availability triples,
minus the diet penalty, clamped; 0 when nothing is available.  This is
the aggregation formula in the spec's words (§4.3). -/
def weightedAverageConfidence (entries : List (ℚ × ℚ × Bool))
    (dietPenalty : ℚ) : ℚ :=
  let available := entries.filter fun e => e.2.2
  if available.isEmpty then 0
  else
    clamp
      ((available.map fun e => e.1 * e.2.1).sum /
        (available.map fun e => e.2.1).sum - dietPenalty * (1/20)) 0 1

/-- The spec's aggregate confidence with the availability predicates as
the code actually has them: identifier needs two UPC-looking scancodes,
brand and category need two non-empty values, size needs two non-zero
values, price needs two numbers, name is always available. -/
def specConfidence (scores : FeatureScores) (a b : NormalizedProduct) : ℚ :=
  weightedAverageConfidence
    [(scores.upc, 1/4, isLikelyUPC a.scancode && isLikelyUPC b.scancode),
     (scores.name, 1/4, true),
     (scores.brand, 1/5, strTruthy a.brand && strTruthy b.brand),
     (scores.size, 1/5, numTruthy a.sizeOz && numTruthy b.sizeOz),
     (scores.category, 1/20, strTruthy a.category && strTruthy b.category),
     (scores.price, 1/20, a.price.isSome && b.price.isSome)]
    scores.dietPenalty

/-- The spec's aggregate confidence with the availability predicates
exactly as claim C3 words them: brand, size and category available
whenever both sides are non-absent (merely `isSome`), price available
whenever both sides are numeric. -/
def specConfidenceClaimed (scores : FeatureScores) (a b : NormalizedProduct) : ℚ :=
  weightedAverageConfidence
    [(scores.upc, 1/4, isLikelyUPC a.scancode && isLikelyUPC b.scancode),
     (scores.name, 1/4, true),
     (scores.brand, 1/5, a.brand.isSome && b.brand.isSome),
     (scores.size, 1/5, a.sizeOz.isSome && b.sizeOz.isSome),
     (scores.category, 1/20, a.category.isSome && b.category.isSome),
     (scores.price, 1/20, a.price.isSome && b.price.isSome)]
    scores.dietPenalty

/-! ### Concrete inputs for counterexamples and witnesses -/

/-- A canonical entity with every optional attribute absent. -/
def blankProduct : NormalizedProduct :=
  { source := "365"
    sourceId := ""
    rawName := ""
    normalizedName := ""
    tokens := []
    brand := none
    sizeOz := none
    sizeLabel := none
    price := none
    category := none
    isDiet := false
    scancode := none }

/-- C3 counterexample input: both sides carry a present size of exactly 0
and share their single name token. -/
def c3ProductA : NormalizedProduct :=
  { blankProduct with
    sourceId := "A1"
    normalizedName := "x"
    tokens := ["x"]
    sizeOz := some 0 }

/-- C3 counterexample input, B side. -/
def c3ProductB : NormalizedProduct :=
  { blankProduct with
    sourceId := "B1"
    normalizedName := "x"
    tokens := ["x"]
    sizeOz := some 0 }

/-- C5 witness entity: every attribute present, tokens duplicate-free. -/
def c5Entity : NormalizedProduct :=
  { blankProduct with
    sourceId := "12345678"
    rawName := "Lays Classic 12oz"
    normalizedName := "lays 12oz"
    tokens := ["lays", "12oz"]
    brand := some "lays"
    sizeOz := some 12
    price := some 2
    category := some "Chips"
    scancode := some "12345678" }

/-- C1 counterexample input, A side: name-only evidence with Jaccard
2/3. -/
def c1ProductA : NormalizedProduct :=
  { blankProduct with sourceId := "A1", tokens := ["ab", "cd"] }

/-- C1 counterexample input, B side. -/
def c1ProductB : NormalizedProduct :=
  { blankProduct with sourceId := "B1", tokens := ["ab", "cd", "ef"] }

/-- C1 counterexample options: the auto-accept threshold 0.67 sits between
the exact confidence 2/3 and its rounding 0.67. -/
def c1Options : PartialMatchOptions :=
  { autoAcceptThreshold := some (67/100), reviewThreshold := some (3/5) }

/-- The match records of the C1 counterexample run. -/
def c1Matches : List MatchRecord :=
  resultMatches (matchProducts [c1ProductA] [c1ProductB] c1Options)

/-- C2 counterexample inputs: two identical A entities and one B entity
they both match. -/
def c2ProductA1 : NormalizedProduct :=
  { blankProduct with
    sourceId := "A1"
    normalizedName := "cola"
    tokens := ["cola"] }

/-- C2 counterexample input, second A side. -/
def c2ProductA2 : NormalizedProduct :=
  { blankProduct with
    sourceId := "A2"
    normalizedName := "cola"
    tokens := ["cola"] }

/-- C2 counterexample input, B side. -/
def c2ProductB : NormalizedProduct :=
  { blankProduct with
    sourceId := "B1"
    normalizedName := "cola"
    tokens := ["cola"] }

/-- The match records of the C2 counterexample run (default options). -/
def c2Matches : List MatchRecord :=
  resultMatches (matchProducts [c2ProductA1, c2ProductA2] [c2ProductB] {})

/-- An invalid configuration: review threshold above the auto-accept
threshold. -/
def c8BadOptions : PartialMatchOptions :=
  { autoAcceptThreshold := some (1/2), reviewThreshold := some (9/10) }

/-- The single match record the C1 counterexample run produces: unrounded
confidence 2/3 (less than the auto threshold 0.67), stored rounded
confidence 0.67 (not less than the auto threshold), decision review. -/
def c1Record : MatchRecord :=
  { productA := summarizeProduct c1ProductA
    productB := summarizeProduct c1ProductB
    confidence := 67/100
    decision := Decision.review
    featureScores :=
      { upc := 0
        name := 67/100
        brand := 0
        size := 0
        category := 0
        price := 0
        dietPenalty := 0 } }

/-- A one-pair matching run under explicit thresholds, used to witness the
monotonicity claim. -/
def c6Res (autoT reviewT : ℚ) : MatchResult :=
  matchCore [c2ProductA1] [c2ProductB]
    { autoAcceptThreshold := autoT, reviewThreshold := reviewT }

/-! ## Theorems

First a handful of sanity evaluations of the embedding on concrete
inputs, then the helper lemmas and the claim theorems. -/

example : normalizeName "fl ounce" = "fl oz" := by decide

example : normalizeName "fl oz" = "oz" := by decide

example : normalizeName "Coca-Cola  12 FL. OZ!" = "coca cola 12 oz" := by decide

example : extractBrand "Coke Zero 12oz" = some "coca cola" := by decide

example : extractBrand "Mystery Snack Bar" = some "mystery" := by decide

example : extractBrand " , ,  " = none := by decide

example : isLikelyUPC (some "012345678905") = true := by decide

example : isLikelyUPC (some "PRD001") = false := by decide

/-! ### Confidence aggregation lemmas -/

/-- The conditional `reduce` of `computeConfidence` is a sum over the
available components. -/
lemma foldl_if_add (f : Component → ℚ) (comps : List Component) :
    ∀ init : ℚ,
      comps.foldl (fun sum c => if c.available then sum + f c else sum) init =
        init + ((comps.filter fun c => c.available).map f).sum := by
  induction comps with
  | nil => intro init; simp
  | cons c cs ih =>
    intro init
    by_cases h : c.available
    · simp only [List.foldl_cons, h, if_pos, List.filter_cons, if_true, List.map_cons,
        List.sum_cons, ih]
      ring
    · simp only [List.foldl_cons, h, Bool.false_eq_true, if_false, ih, List.filter_cons]

/-- The weight sum as a sum over available components. -/
lemma weightSum_eq (comps : List Component) :
    weightSum comps = ((comps.filter fun c => c.available).map fun c => c.weight).sum := by
  simpa using foldl_if_add (fun c => c.weight) comps 0

/-- The weighted score as a sum over available components. -/
lemma weightedScore_eq (comps : List Component) :
    weightedScore comps =
      ((comps.filter fun c => c.available).map fun c => c.score * c.weight).sum := by
  simpa using foldl_if_add (fun c => c.score * c.weight) comps 0

/-- Clamping to the unit interval lands in the unit interval. -/
lemma clamp_unit_bounds (x : ℚ) : 0 ≤ clamp x 0 1 ∧ clamp x 0 1 ≤ 1 := by
  unfold clamp
  exact ⟨le_min (by norm_num) (le_max_left 0 x), min_le_left 1 _⟩

/-- The aggregate confidence is nonnegative. -/
lemma computeConfidence_nonneg (scores : FeatureScores) (a b : NormalizedProduct) :
    0 ≤ computeConfidence scores a b := by
  simp only [computeConfidence]
  split
  · exact le_refl 0
  · exact (clamp_unit_bounds _).1

/-- The aggregate confidence is at most one. -/
lemma computeConfidence_le_one (scores : FeatureScores) (a b : NormalizedProduct) :
    computeConfidence scores a b ≤ 1 := by
  simp only [computeConfidence]
  split
  · norm_num
  · exact (clamp_unit_bounds _).2

/-- Every component weight in the aggregation is positive. -/
lemma confidenceComponents_weight_pos (scores : FeatureScores)
    (a b : NormalizedProduct) :
    ∀ c ∈ confidenceComponents scores a b, 0 < c.weight := by
  intro c hc
  simp only [confidenceComponents, List.mem_cons, List.not_mem_nil, or_false] at hc
  rcases hc with h | h | h | h | h | h <;> subst h <;> norm_num

/-- The spec-side weighted average agrees with the fold-based
implementation shape, for any component list with positive weights. -/
lemma weightedAverage_eq_fold (comps : List Component) (dp : ℚ)
    (hw : ∀ c ∈ comps, 0 < c.weight) :
    weightedAverageConfidence (comps.map fun c => (c.score, c.weight, c.available)) dp =
      if weightSum comps = 0 then 0
      else clamp (weightedScore comps / weightSum comps - dp * (1/20)) 0 1 := by
  unfold weightedAverageConfidence
  have hfilter :
      ((comps.map fun c => (c.score, c.weight, c.available)).filter fun e => e.2.2) =
        (comps.filter fun c => c.available).map fun c => (c.score, c.weight, c.available) := by
    rw [List.filter_map]
    rfl
  rw [hfilter, weightSum_eq, weightedScore_eq]
  have hmaps :
      (((comps.filter fun c => c.available).map fun c => (c.score, c.weight, c.available)).map
        fun e => e.1 * e.2.1) = (comps.filter fun c => c.available).map fun c => c.score * c.weight := by
    rw [List.map_map]
    rfl
  have hmapw :
      (((comps.filter fun c => c.available).map fun c => (c.score, c.weight, c.available)).map
        fun e => e.2.1) = (comps.filter fun c => c.available).map fun c => c.weight := by
    rw [List.map_map]
    rfl
  simp only [hmaps, hmapw, List.isEmpty_eq_true, List.map_eq_nil_iff]
  by_cases hnil : comps.filter (fun c => c.available) = []
  · rw [if_pos hnil, if_pos (by rw [hnil]; simp)]
  · have hpos : 0 < ((comps.filter fun c => c.available).map fun c => c.weight).sum := by
      apply List.sum_pos
      · intro x hx
        rcases List.mem_map.mp hx with ⟨c, hc, rfl⟩
        exact hw c (List.mem_of_mem_filter hc)
      · simp [hnil]
    rw [if_neg hnil, if_neg (ne_of_gt hpos)]

/-- C3 (amended).  For every score vector and entity pair the aggregate
confidence equals the availability-weighted average of the available
attribute scores (weights 0.25 / 0.25 / 0.20 / 0.20 / 0.05 / 0.05),
minus `dietPenalty × 0.05`, clamped to `[0,1]`, with 0 when no attribute
is available — where the identifier attribute is available only when
both scancodes are digits-only strings of 8 to 14 characters, brand and
category are available when both sides are present and non-empty, size
is available when both sides are present and non-zero, price is
available when both sides are numeric, and name is always available.
Consequently the confidence always lies in `[0,1]`. -/
theorem confidence_weighted_average (scores : FeatureScores)
    (a b : NormalizedProduct) :
    computeConfidence scores a b = specConfidence scores a b ∧
    0 ≤ computeConfidence scores a b ∧ computeConfidence scores a b ≤ 1 := by
  refine ⟨?_, computeConfidence_nonneg scores a b, computeConfidence_le_one scores a b⟩
  have hspec : specConfidence scores a b =
      weightedAverageConfidence
        ((confidenceComponents scores a b).map fun c => (c.score, c.weight, c.available))
        scores.dietPenalty := by
    simp only [specConfidence, confidenceComponents, List.map_cons, List.map_nil,
      upcAvailable, brandAvailable, sizeAvailable, categoryAvailable, priceAvailable]
  rw [hspec,
    weightedAverage_eq_fold _ _ (confidenceComponents_weight_pos scores a b)]
  rfl

/-- C3 counterexample.  With a present size of exactly 0 on both sides
the code excludes the size attribute from the weighted average, while
the claim's availability reading ("non-absent") includes it: at this
concrete pair the two formulas give different confidences (1 versus
5/9). -/
theorem confidence_claimed_availability_cex :
    computeConfidence (computeFeatureScores c3ProductA c3ProductB) c3ProductA c3ProductB ≠
      specConfidenceClaimed (computeFeatureScores c3ProductA c3ProductB) c3ProductA
        c3ProductB ∧
    computeConfidence (computeFeatureScores c3ProductA c3ProductB) c3ProductA c3ProductB = 1 ∧
    specConfidenceClaimed (computeFeatureScores c3ProductA c3ProductB) c3ProductA c3ProductB =
      5/9 := by
  refine ⟨?_, by decide, by decide⟩
  decide

/-- C9.  A present size of exactly 0 behaves like an absent size: the
size score is 0, the size attribute is unavailable, and the aggregate
confidence does not depend on the size score at all; by contrast a
present price of 0 keeps the price attribute available. -/
theorem zero_size_unavailable (a b : NormalizedProduct) (scores : FeatureScores)
    (x : ℚ) :
    ((a.sizeOz = some 0 ∨ b.sizeOz = some 0) →
      scoreSize a.sizeOz b.sizeOz = 0 ∧ sizeAvailable a b = false ∧
      computeConfidence scores a b =
        computeConfidence { scores with size := x } a b) ∧
    (a.price.isSome = true → b.price.isSome = true →
      priceAvailable a b = true) := by
  constructor
  · intro h
    have hs : sizeAvailable a b = false := by
      rcases h with h | h <;> simp [sizeAvailable, h, numTruthy]
    refine ⟨?_, hs, ?_⟩
    · rcases h with h | h <;> simp [scoreSize, h, numTruthy]
    · simp only [computeConfidence, confidenceComponents, weightSum, weightedScore, hs,
        List.foldl_cons, List.foldl_nil, Bool.false_eq_true, if_false]
  · intro h1 h2
    simp [priceAvailable, h1, h2]

/-- C9 witness: the size part discharged at the all-zero-size pair of the
C3 counterexample, the price part at the fully-populated C5 entity. -/
theorem zero_size_unavailable_witness :
    (scoreSize c3ProductA.sizeOz c3ProductB.sizeOz = 0 ∧
      sizeAvailable c3ProductA c3ProductB = false ∧
      computeConfidence (computeFeatureScores c3ProductA c3ProductB) c3ProductA c3ProductB =
        computeConfidence
          { computeFeatureScores c3ProductA c3ProductB with size := 1/2 } c3ProductA
          c3ProductB) ∧
    priceAvailable c5Entity c5Entity = true :=
  ⟨(zero_size_unavailable c3ProductA c3ProductB
      (computeFeatureScores c3ProductA c3ProductB) (1/2)).1 (Or.inl rfl),
   (zero_size_unavailable c5Entity c5Entity
      (computeFeatureScores c5Entity c5Entity) 0).2 (by decide) (by decide)⟩

/-! ### Self-match lemmas (C5) -/

/-- The token Jaccard of a non-empty duplicate-free token list against
itself is exactly 1. -/
lemma scoreNameTokens_self (t : List String) (hne : t ≠ []) (hnd : t.Nodup) :
    scoreNameTokens t t = 1 := by
  have hemp : t.isEmpty = false := by
    cases t with
    | nil => exact absurd rfl hne
    | cons x xs => rfl
  have hfilter : (t.filter fun s => t.contains s) = t := by
    rw [List.filter_eq_self]
    intro x hx
    exact List.elem_eq_true_of_mem hx
  have hunion : (t ++ t).dedup.length = t.length := by
    have h1 : (t ++ t).dedup.length = (t ++ t).toFinset.card :=
      (List.card_toFinset _).symm
    have h2 : (t ++ t).toFinset = t.toFinset := by
      rw [List.toFinset_append, Finset.union_self]
    have h3 : t.toFinset.card = t.dedup.length := List.card_toFinset t
    rw [h1, h2, h3, List.dedup_eq_self.mpr hnd]
  have hlen : (t.length : ℚ) ≠ 0 := by
    have : t.length ≠ 0 := by
      cases t with
      | nil => exact absurd rfl hne
      | cons x xs => simp
    exact_mod_cast this
  simp only [scoreNameTokens, hemp, Bool.or_self, Bool.false_eq_true, if_false,
    hfilter, hunion]
  rw [if_neg, div_self hlen]
  intro hcontra
  exact absurd hcontra (by
    cases t with
    | nil => exact absurd rfl hne
    | cons x xs => simp)

/-- The bigram Dice coefficient of a string against itself is at most 1
(it is 1 when there are bigrams at all, 0 otherwise). -/
lemma scoreCharacterBigram_self_le_one (s : String) :
    scoreCharacterBigram s s ≤ 1 := by
  simp only [scoreCharacterBigram]
  by_cases hg : (buildBigrams s).isEmpty
  · simp [hg]
  · simp only [hg, Bool.or_self, Bool.false_eq_true, if_false]
    have hI : intersectionBigrams (buildBigrams s) (buildBigrams s) =
        (buildBigrams s).length := by
      simp only [intersectionBigrams, bigramCount, min_self]
      exact List.sum_map_count_dedup_eq_length (buildBigrams s)
    have hlen : (buildBigrams s).length ≠ 0 := by
      intro hcontra
      rw [List.isEmpty_iff, ← List.length_eq_zero] at hg
      exact hg hcontra
    have hlenQ : ((buildBigrams s).length : ℚ) ≠ 0 := by exact_mod_cast hlen
    rw [hI]
    have h2L : ((buildBigrams s).length : ℚ) + (buildBigrams s).length =
        2 * (buildBigrams s).length := by ring
    rw [h2L, div_self (mul_ne_zero two_ne_zero hlenQ)]

/-- The name similarity of a canonical entity against itself is exactly 1
when its token list is non-empty and duplicate-free. -/
lemma scoreNameSimilarity_self (e : NormalizedProduct) (hne : e.tokens ≠ [])
    (hnd : e.tokens.Nodup) : scoreNameSimilarity e e = 1 := by
  unfold scoreNameSimilarity
  rw [scoreNameTokens_self e.tokens hne hnd]
  exact max_eq_left (scoreCharacterBigram_self_le_one _)

/-- When every available component scores 1, the weighted score equals
the weight sum. -/
lemma weightedScore_eq_weightSum_of_ones (comps : List Component)
    (h : ∀ c ∈ comps, c.available = true → c.score = 1) :
    weightedScore comps = weightSum comps := by
  rw [weightedScore_eq, weightSum_eq]
  congr 1
  apply List.map_congr_left
  intro c hc
  rw [h c (List.mem_of_mem_filter hc) (List.of_mem_filter hc), one_mul]

/-- A UPC-looking scancode is in particular a truthy scancode. -/
lemma strTruthy_of_isLikelyUPC (s : Option String) (h : isLikelyUPC s = true) :
    strTruthy s = true := by
  cases s with
  | none => simp [isLikelyUPC] at h
  | some v =>
    simp only [isLikelyUPC, Bool.and_eq_true, decide_eq_true_eq] at h
    obtain ⟨⟨_, hlen⟩, _⟩ := h
    simp only [strTruthy, ne_eq, decide_eq_true_eq]
    intro hv
    subst hv
    simp at hlen

/-- The weight sum over the matcher's component list is positive (the
name attribute is always available). -/
lemma weightSum_confidence_pos (scores : FeatureScores) (a b : NormalizedProduct) :
    0 < weightSum (confidenceComponents scores a b) := by
  rw [weightSum_eq]
  apply List.sum_pos
  · intro x hx
    rcases List.mem_map.mp hx with ⟨c, hc, rfl⟩
    exact confidenceComponents_weight_pos scores a b c (List.mem_of_mem_filter hc)
  · have hmem : (⟨scores.name, 1/4, true⟩ : Component) ∈
        (confidenceComponents scores a b).filter fun c => c.available := by
      simp [confidenceComponents]
    intro hmap
    exact List.ne_nil_of_mem hmem (List.map_eq_nil_iff.mp hmap)

/-- C5 (amended).  For every canonical entity whose token list is
non-empty and duplicate-free, scoring it against an identical copy of
itself yields identifier score 1 when a truthy (non-empty) scancode is
present, name score 1, brand score 1 when a truthy brand is present,
size score 1 when a non-zero size is present, category score 1 when a
truthy category is present, price score 1 when a price is present, diet
penalty 0, and aggregate confidence exactly 1. -/
theorem self_match (e : NormalizedProduct) (hne : e.tokens ≠ [])
    (hnd : e.tokens.Nodup) :
    (strTruthy e.scancode = true → (computeFeatureScores e e).upc = 1) ∧
    (computeFeatureScores e e).name = 1 ∧
    (strTruthy e.brand = true → (computeFeatureScores e e).brand = 1) ∧
    (numTruthy e.sizeOz = true → (computeFeatureScores e e).size = 1) ∧
    (strTruthy e.category = true → (computeFeatureScores e e).category = 1) ∧
    (e.price.isSome = true → (computeFeatureScores e e).price = 1) ∧
    (computeFeatureScores e e).dietPenalty = 0 ∧
    computeConfidence (computeFeatureScores e e) e e = 1 := by
  have hupc : strTruthy e.scancode = true → (computeFeatureScores e e).upc = 1 := by
    intro h
    simp [computeFeatureScores, scoreUPC, h]
  have hname : (computeFeatureScores e e).name = 1 :=
    scoreNameSimilarity_self e hne hnd
  have hbrand : strTruthy e.brand = true → (computeFeatureScores e e).brand = 1 := by
    intro h
    simp [computeFeatureScores, scoreBrand, h]
  have hsize : numTruthy e.sizeOz = true → (computeFeatureScores e e).size = 1 := by
    intro h
    norm_num [computeFeatureScores, scoreSize, h, clamp]
  have hcat : strTruthy e.category = true → (computeFeatureScores e e).category = 1 := by
    intro h
    simp [computeFeatureScores, scoreCategory, h]
  have hprice : e.price.isSome = true → (computeFeatureScores e e).price = 1 := by
    intro h
    obtain ⟨x, hx⟩ := Option.isSome_iff_exists.mp h
    rcases eq_or_ne x 0 with h0 | h0
    · simp [computeFeatureScores, scoreNumericSimilarity, hx, h0]
    · have havg : (x + x) / 2 = x := by ring
      have hr : |x - x| / ((x + x) / 2) = 0 := by
        rw [sub_self, abs_zero, zero_div]
      norm_num [computeFeatureScores, scoreNumericSimilarity, hx, h0, havg]
  have hdiet : (computeFeatureScores e e).dietPenalty = 0 := by
    simp [computeFeatureScores, scoreDietPenalty]
  refine ⟨hupc, hname, hbrand, hsize, hcat, hprice, hdiet, ?_⟩
  have hones : ∀ c ∈ confidenceComponents (computeFeatureScores e e) e e,
      c.available = true → c.score = 1 := by
    intro c hc hav
    simp only [confidenceComponents, List.mem_cons, List.not_mem_nil, or_false] at hc
    rcases hc with h | h | h | h | h | h <;> subst h
    · simp only [upcAvailable, Bool.and_eq_true] at hav
      exact hupc (strTruthy_of_isLikelyUPC _ hav.1)
    · exact hname
    · simp only [brandAvailable, Bool.and_eq_true] at hav
      exact hbrand hav.1
    · simp only [sizeAvailable, Bool.and_eq_true] at hav
      exact hsize hav.1
    · simp only [categoryAvailable, Bool.and_eq_true] at hav
      exact hcat hav.1
    · simp only [priceAvailable, Bool.and_eq_true] at hav
      exact hprice hav.1
  have hwpos := weightSum_confidence_pos (computeFeatureScores e e) e e
  simp only [computeConfidence]
  rw [if_neg (ne_of_gt hwpos), weightedScore_eq_weightSum_of_ones _ hones,
    div_self (ne_of_gt hwpos), hdiet]
  norm_num [clamp]

/-- C5 counterexample.  At the entity with empty name and no attributes
the self-match name score is 0, not 1 as claimed, and the aggregate
confidence is 0 even though the name attribute is available (so the
claim's "0.0 only when no attribute is available" reading fails too). -/
theorem self_match_cex :
    (computeFeatureScores blankProduct blankProduct).name ≠ 1 ∧
    (computeFeatureScores blankProduct blankProduct).name = 0 ∧
    computeConfidence (computeFeatureScores blankProduct blankProduct) blankProduct
      blankProduct = 0 ∧
    weightSum
      (confidenceComponents (computeFeatureScores blankProduct blankProduct)
        blankProduct blankProduct) ≠ 0 := by
  refine ⟨by decide, by decide, by decide, by decide⟩

/-- C5 witness: the amended self-match theorem applied to the fully
populated entity. -/
theorem self_match_witness :
    c5Entity.tokens ≠ [] ∧ c5Entity.tokens.Nodup ∧
    (computeFeatureScores c5Entity c5Entity).upc = 1 ∧
    (computeFeatureScores c5Entity c5Entity).name = 1 ∧
    (computeFeatureScores c5Entity c5Entity).brand = 1 ∧
    (computeFeatureScores c5Entity c5Entity).size = 1 ∧
    (computeFeatureScores c5Entity c5Entity).category = 1 ∧
    (computeFeatureScores c5Entity c5Entity).price = 1 ∧
    (computeFeatureScores c5Entity c5Entity).dietPenalty = 0 ∧
    computeConfidence (computeFeatureScores c5Entity c5Entity) c5Entity c5Entity = 1 :=
  ⟨by decide, by decide,
   (self_match c5Entity (by decide) (by decide)).1 (by decide),
   (self_match c5Entity (by decide) (by decide)).2.1,
   (self_match c5Entity (by decide) (by decide)).2.2.1 (by decide),
   (self_match c5Entity (by decide) (by decide)).2.2.2.1 (by decide),
   (self_match c5Entity (by decide) (by decide)).2.2.2.2.1 (by decide),
   (self_match c5Entity (by decide) (by decide)).2.2.2.2.2.1 (by decide),
   (self_match c5Entity (by decide) (by decide)).2.2.2.2.2.2.1,
   (self_match c5Entity (by decide) (by decide)).2.2.2.2.2.2.2⟩

/-! ### Configuration validation (C8) -/

/-- C8.  When the resolved configuration has
`reviewThreshold > autoAcceptThreshold`, `matchProducts` fails with the
configuration error before any matching work, for every pair of input
lists — the error value does not depend on the entities at all; with a
valid ordering it never raises and returns the `matchCore` result. -/
theorem config_error_aborts (productsA productsB : List NormalizedProduct)
    (options : PartialMatchOptions) :
    ((resolveOptions options).autoAcceptThreshold <
        (resolveOptions options).reviewThreshold →
      matchProducts productsA productsB options =
        Except.error "reviewThreshold must be <= autoAcceptThreshold") ∧
    ((resolveOptions options).reviewThreshold ≤
        (resolveOptions options).autoAcceptThreshold →
      matchProducts productsA productsB options =
        Except.ok (matchCore productsA productsB (resolveOptions options))) := by
  constructor
  · intro h
    simp only [matchProducts]
    rw [if_pos]
    exact h
  · intro h
    simp only [matchProducts]
    rw [if_neg]
    exact not_lt.mpr h

/-- C8 witness: the invalid configuration (review 0.9, auto 0.5) fails
fast on any inputs; the default configuration returns a result. -/
theorem config_error_aborts_witness :
    matchProducts [blankProduct] [blankProduct] c8BadOptions =
      Except.error "reviewThreshold must be <= autoAcceptThreshold" ∧
    matchProducts [blankProduct] [] {} =
      Except.ok (matchCore [blankProduct] [] (resolveOptions {})) :=
  ⟨(config_error_aborts [blankProduct] [blankProduct] c8BadOptions).1 (by decide),
   (config_error_aborts [blankProduct] [] {}).2 (by decide)⟩

/-! ### Brand extraction (C10) -/

/-- The token split is empty exactly when everything is separator
characters (auxiliary form). -/
lemma splitTokensAux_eq_nil (l : List Char) :
    ∀ cur, (splitTokensAux l cur = [] ↔
      cur = [] ∧ ∀ c ∈ l, isSepChar c = true) := by
  induction l with
  | nil =>
    intro cur
    cases cur with
    | nil => simp [splitTokensAux]
    | cons x xs => simp [splitTokensAux]
  | cons c cs ih =>
    intro cur
    simp only [splitTokensAux]
    by_cases hsep : isSepChar c
    · rw [if_pos hsep]
      cases cur with
      | nil =>
        simp only [List.isEmpty_nil, if_true, ih, true_and]
        simp [hsep]
      | cons x xs =>
        simp [List.isEmpty_cons]
    · rw [if_neg hsep]
      rw [ih]
      simp [hsep]

/-- The token split of `extractBrand` is empty exactly when the string
consists of separators only. -/
lemma splitTokens_eq_nil (l : List Char) :
    splitTokens l = [] ↔ ∀ c ∈ l, isSepChar c = true := by
  unfold splitTokens
  rw [splitTokensAux_eq_nil]
  simp

/-- Every token the split produces is non-empty. -/
lemma mem_splitTokensAux_ne_nil (l : List Char) :
    ∀ cur t, t ∈ splitTokensAux l cur → t ≠ [] := by
  induction l with
  | nil =>
    intro cur t ht
    cases cur with
    | nil => simp [splitTokensAux] at ht
    | cons x xs =>
      simp only [splitTokensAux, List.isEmpty_cons, if_false] at ht
      simp only [Bool.false_eq_true, if_false, List.mem_singleton] at ht
      subst ht
      simp
  | cons c cs ih =>
    intro cur t ht
    simp only [splitTokensAux] at ht
    by_cases hsep : isSepChar c
    · rw [if_pos hsep] at ht
      cases cur with
      | nil =>
        simp only [List.isEmpty_nil, if_true] at ht
        exact ih [] t ht
      | cons x xs =>
        simp only [List.isEmpty_cons, Bool.false_eq_true, if_false,
          List.mem_cons] at ht
        rcases ht with h | h
        · subst h; simp
        · exact ih [] t h
    · rw [if_neg hsep] at ht
      exact ih (c :: cur) t ht

/-- The token loop of `extractBrand` only returns non-empty strings. -/
lemma brandLoop_ne_empty :
    ∀ (ts : List (List Char)) (c : String), brandLoop ts = some c → c ≠ "" := by
  intro ts
  induction ts with
  | nil => intro c hc; simp [brandLoop] at hc
  | cons t ts ihts =>
    intro c hc
    simp only [brandLoop] at hc
    cases hcan : canonicalizeBrand (some t.asString) with
    | none => rw [hcan] at hc; exact ihts c hc
    | some c0 =>
      simp only [hcan] at hc
      by_cases hc0 : c0 = ""
      · simp [hc0] at hc
        exact ihts c hc
      · rw [if_pos hc0] at hc
        cases hc
        exact hc0

/-- A produced brand string is always non-empty. -/
lemma extractBrand_ne_empty (rawName : String) (v : String)
    (h : extractBrand rawName = some v) : v ≠ "" := by
  unfold extractBrand at h
  split at h
  next key hfind =>
    have hmem : key ∈ synonymKeysByLength := List.mem_of_find?_eq_some hfind
    have hval : ∀ k ∈ synonymKeysByLength, ∀ w, brandSynonym k = some w → w ≠ "" := by
      decide
    exact hval key hmem v h
  next hfind =>
    split at h
    · exact absurd h (by simp)
    next htoks =>
      split at h
      next c hbl =>
        cases h
        exact brandLoop_ne_empty _ _ hbl
      next hbl =>
        cases htl : splitTokens (lowerList rawName.toList) with
        | nil => rw [htl] at htoks; simp at htoks
        | cons t ts =>
          rw [htl] at h
          simp only [List.head?_cons] at h
          simp at h
          have htne : t ≠ [] :=
            mem_splitTokensAux_ne_nil _ [] t (htl ▸ List.mem_cons_self t ts)
          rw [← h]
          intro hcontra
          apply htne
          have := congrArg String.toList hcontra
          simpa using this

/-- C10.  The brand extractor returns `undefined` exactly when the
lower-cased raw name has no tokens under the whitespace-and-comma split;
the same holds for the composed `canonicalizeBrand ∘ extractBrand` that
the two normalizers store in the brand field. -/
theorem brand_absent_iff_no_tokens (rawName : String) :
    (extractBrand rawName = none ↔
      splitTokens (lowerList rawName.toList) = []) ∧
    (canonicalizeBrand (extractBrand rawName) = none ↔
      splitTokens (lowerList rawName.toList) = []) := by
  have hmain : extractBrand rawName = none ↔
      splitTokens (lowerList rawName.toList) = [] := by
    constructor
    · intro h
      by_contra htok
      unfold extractBrand at h
      split at h
      next key hfind =>
        have hmem : key ∈ synonymKeysByLength := List.mem_of_find?_eq_some hfind
        have hval : ∀ k ∈ synonymKeysByLength, (brandSynonym k).isSome = true := by
          decide
        have hsome := hval key hmem
        rw [h] at hsome
        simp at hsome
      next hfind =>
        split at h
        next htoks =>
          rw [List.isEmpty_iff] at htoks
          exact htok htoks
        next htoks =>
          split at h
          next c hbl => exact absurd h (by simp)
          next hbl =>
            cases htl : splitTokens (lowerList rawName.toList) with
            | nil => exact htok htl
            | cons t ts =>
              rw [htl] at h
              simp at h
    · intro htok
      have hall : ∀ c ∈ lowerList rawName.toList, isSepChar c = true :=
        (splitTokens_eq_nil _).mp htok
      have hfind : synonymKeysByLength.find?
          (fun key => decide (key.toList <:+: lowerList rawName.toList)) = none := by
        rw [List.find?_eq_none]
        intro key hkey
        simp only [decide_eq_true_eq]
        intro hinf
        have hkeyfact : ∀ k ∈ synonymKeysByLength,
            ∃ c ∈ k.toList, isSepChar c = false := by decide
        obtain ⟨c, hc, hcsep⟩ := hkeyfact key hkey
        have hcmem : c ∈ lowerList rawName.toList := hinf.subset hc
        rw [hall c hcmem] at hcsep
        simp at hcsep
      unfold extractBrand
      rw [hfind, htok]
      rfl
  refine ⟨hmain, ⟨?_, ?_⟩⟩
  · intro h
    cases hx : extractBrand rawName with
    | none => exact hmain.mp hx
    | some v =>
      have hv : v ≠ "" := extractBrand_ne_empty rawName v hx
      rw [hx] at h
      simp only [canonicalizeBrand, hv, if_false] at h
      split at h <;> exact absurd h (by simp)
  · intro htok
    rw [hmain.mpr htok]
    rfl

/-! ### Matcher loop lemmas (C1, C2, C6, C7) -/

/-- Any candidate the inner fold returns either came from the
accumulator or is an evaluated member of the candidate list with its
scores and confidence. -/
lemma foldl_considerB_origin (opts : MatchOptions) (a : NormalizedProduct) :
    ∀ (bs : List NormalizedProduct) (acc : Option Cand) (c : Cand),
      bs.foldl (considerB opts a) acc = some c →
      acc = some c ∨
        (c.product ∈ bs ∧ c.scores = computeFeatureScores a c.product ∧
          c.conf = confOf a c.product) := by
  intro bs
  induction bs with
  | nil => intro acc c h; exact Or.inl h
  | cons b bs ih =>
    intro acc c h
    rw [List.foldl_cons] at h
    rcases ih (considerB opts a acc b) c h with hacc | hmem
    · simp only [considerB] at hacc
      split at hacc
      · exact Or.inl hacc
      · split at hacc
        · cases hacc
          exact Or.inr ⟨List.mem_cons_self _ _, rfl, rfl⟩
        · split at hacc
          · cases hacc
            exact Or.inr ⟨List.mem_cons_self _ _, rfl, rfl⟩
          · exact Or.inl hacc
    · exact Or.inr ⟨List.mem_cons_of_mem b hmem.1, hmem.2⟩

/-- The best-candidate confidence never decreases along the fold. -/
lemma foldl_considerB_conf_mono (opts : MatchOptions) (a : NormalizedProduct) :
    ∀ (bs : List NormalizedProduct) (c0 : Cand),
      ∃ c, bs.foldl (considerB opts a) (some c0) = some c ∧ c0.conf ≤ c.conf := by
  intro bs
  induction bs with
  | nil => intro c0; exact ⟨c0, rfl, le_refl _⟩
  | cons b bs ih =>
    intro c0
    rw [List.foldl_cons]
    have hstep : ∃ c1, considerB opts a (some c0) b = some c1 ∧ c0.conf ≤ c1.conf := by
      simp only [considerB]
      by_cases hskip : computeConfidence (computeFeatureScores a b) a b <
          opts.reviewThreshold * (13/20)
      · rw [if_pos hskip]
        exact ⟨c0, rfl, le_refl _⟩
      · rw [if_neg hskip]
        by_cases hgt : computeConfidence (computeFeatureScores a b) a b > c0.conf
        · rw [if_pos hgt]
          exact ⟨_, rfl, le_of_lt hgt⟩
        · rw [if_neg hgt]
          exact ⟨c0, rfl, le_refl _⟩
    obtain ⟨c1, hc1, hle⟩ := hstep
    rw [hc1]
    obtain ⟨c, hc, hle2⟩ := ih c1
    exact ⟨c, hc, le_trans hle hle2⟩

/-- Every non-skipped candidate is dominated by the fold's final best
candidate. -/
lemma foldl_considerB_reaches (opts : MatchOptions) (a : NormalizedProduct) :
    ∀ (bs : List NormalizedProduct) (acc : Option Cand) (b : NormalizedProduct),
      b ∈ bs →
      ¬ (confOf a b < opts.reviewThreshold * (13/20)) →
      ∃ c, bs.foldl (considerB opts a) acc = some c ∧ confOf a b ≤ c.conf := by
  intro bs
  induction bs with
  | nil => intro acc b hb; exact absurd hb (List.not_mem_nil b)
  | cons b0 bs ih =>
    intro acc b hb hskip
    rw [List.foldl_cons]
    rcases List.mem_cons.mp hb with rfl | hb'
    · have hskip' : ¬ (computeConfidence (computeFeatureScores a b) a b <
          opts.reviewThreshold * (13/20)) := by simpa only [confOf] using hskip
      have hstep : ∃ c1, considerB opts a acc b = some c1 ∧ confOf a b ≤ c1.conf := by
        cases acc with
        | none =>
          simp only [considerB]
          rw [if_neg hskip']
          exact ⟨_, rfl, le_refl _⟩
        | some c0 =>
          simp only [considerB]
          rw [if_neg hskip']
          by_cases hgt : computeConfidence (computeFeatureScores a b) a b > c0.conf
          · rw [if_pos hgt]
            exact ⟨_, rfl, le_refl _⟩
          · rw [if_neg hgt]
            exact ⟨c0, rfl, not_lt.mp hgt⟩
      obtain ⟨c1, hc1, hle⟩ := hstep
      rw [hc1]
      obtain ⟨c, hc, hle2⟩ := foldl_considerB_conf_mono opts a bs c1
      exact ⟨c, hc, le_trans hle hle2⟩
    · exact ih (considerB opts a acc b0) b hb' hskip

/-- A candidate whose confidence reaches a threshold at or above the
review threshold is never removed by the early skip. -/
lemma not_skip_of_le (opts : MatchOptions) (a b : NormalizedProduct) (x : ℚ)
    (hx : opts.reviewThreshold ≤ x) (h : x ≤ confOf a b) :
    ¬ (confOf a b < opts.reviewThreshold * (13/20)) := by
  intro hlt
  have h0 : 0 ≤ confOf a b := computeConfidence_nonneg _ _ _
  rcases le_or_lt 0 opts.reviewThreshold with hr | hr
  · have hms : opts.reviewThreshold * (13/20) ≤ opts.reviewThreshold :=
      mul_le_of_le_one_right hr (by norm_num)
    have := le_trans hx h
    linarith
  · have : opts.reviewThreshold * (13/20) < 0 :=
      mul_neg_of_neg_of_pos hr (by norm_num)
    linarith

/-- When some candidate reaches the review threshold the A entity always
produces a match record. -/
lemma classifyA_isSome_of (opts : MatchOptions) (a : NormalizedProduct)
    (bs : List NormalizedProduct) (b : NormalizedProduct) (hb : b ∈ bs)
    (hn : opts.reviewThreshold ≤ confOf a b) :
    ∃ rec, classifyA opts a bs = some rec := by
  have hns := not_skip_of_le opts a b opts.reviewThreshold (le_refl _) hn
  obtain ⟨c, hc, hle⟩ := foldl_considerB_reaches opts a bs none b hb hns
  refine ⟨{ productA := summarizeProduct a
            productB := summarizeProduct c.product
            confidence := round2 c.conf
            decision :=
              if c.conf ≥ opts.autoAcceptThreshold then Decision.auto
              else Decision.review
            featureScores := mapScores c.scores }, ?_⟩
  simp only [classifyA, bestMatchFor, hc]
  rw [if_neg (not_lt.mpr (le_trans hn hle))]

/-- An A entity ends up unmatched exactly when no candidate reaches the
review threshold. -/
lemma classifyA_eq_none_iff (opts : MatchOptions) (a : NormalizedProduct)
    (bs : List NormalizedProduct) :
    classifyA opts a bs = none ↔
      ∀ b ∈ bs, confOf a b < opts.reviewThreshold := by
  constructor
  · intro h b hb
    by_contra hn
    push_neg at hn
    obtain ⟨rec, hrec⟩ := classifyA_isSome_of opts a bs b hb hn
    rw [h] at hrec
    exact absurd hrec (by simp)
  · intro hall
    cases hbm : bs.foldl (considerB opts a) none with
    | none => simp only [classifyA, bestMatchFor, hbm]
    | some c =>
      rcases foldl_considerB_origin opts a bs none c hbm with habs | ⟨hmem, _, hconf⟩
      · exact absurd habs (by simp)
      · simp only [classifyA, bestMatchFor, hbm]
        rw [if_pos (hconf ▸ hall c.product hmem)]

/-- Structure of a produced match record: the best candidate is an
evaluated member of B reaching the review threshold, the stored
confidence is the rounded best confidence, and the decision is the
threshold comparison on the unrounded confidence. -/
lemma classifyA_some_spec (opts : MatchOptions) (a : NormalizedProduct)
    (bs : List NormalizedProduct) (rec : MatchRecord)
    (h : classifyA opts a bs = some rec) :
    ∃ c : Cand, bestMatchFor opts a bs = some c ∧ c.product ∈ bs ∧
      c.scores = computeFeatureScores a c.product ∧
      c.conf = confOf a c.product ∧
      opts.reviewThreshold ≤ c.conf ∧
      rec = { productA := summarizeProduct a
              productB := summarizeProduct c.product
              confidence := round2 c.conf
              decision :=
                if c.conf ≥ opts.autoAcceptThreshold then Decision.auto
                else Decision.review
              featureScores := mapScores c.scores } := by
  simp only [classifyA] at h
  split at h
  next hbm => exact absurd h (by simp)
  next c hbm =>
    split at h
    next => exact absurd h (by simp)
    next hnr =>
      cases h
      rcases foldl_considerB_origin opts a bs none c hbm with habs | ⟨hmem, hscores, hconf⟩
      · exact absurd habs (by simp)
      · exact ⟨c, hbm, hmem, hscores, hconf, not_lt.mp hnr, rfl⟩

/-- A successful run is the `matchCore` of the resolved options, and the
resolved options are valid. -/
lemma matchProducts_ok (as bs : List NormalizedProduct)
    (o : PartialMatchOptions) (res : MatchResult)
    (hok : matchProducts as bs o = Except.ok res) :
    res = matchCore as bs (resolveOptions o) ∧
    (resolveOptions o).reviewThreshold ≤ (resolveOptions o).autoAcceptThreshold := by
  simp only [matchProducts] at hok
  split at hok
  next => exact absurd hok (by simp)
  next h =>
    constructor
    · injection hok with h2
      exact h2.symm
    · exact not_lt.mp h

/-- The match list of the matcher body. -/
lemma matchCore_matches (as bs : List NormalizedProduct) (opts : MatchOptions) :
    (matchCore as bs opts).matches =
      as.filterMap fun a => classifyA opts a bs := rfl

/-- Counting after `filterMap` counts the mapped predicate. -/
lemma countP_filterMap {α β : Type} (f : α → Option β) (p : β → Bool)
    (l : List α) :
    (l.filterMap f).countP p = l.countP fun a => ((f a).map p).getD false := by
  induction l with
  | nil => rfl
  | cons x xs ih =>
    cases hx : f x with
    | none => simp [List.filterMap_cons, hx, List.countP_cons, ih]
    | some y => simp [List.filterMap_cons, hx, List.countP_cons, ih]

/-- Pointwise equal predicates count equally. -/
lemma countP_congr' {α : Type} (l : List α) (p q : α → Bool)
    (h : ∀ a ∈ l, p a = q a) : l.countP p = l.countP q := by
  induction l with
  | nil => rfl
  | cons x xs ih =>
    rw [List.countP_cons, List.countP_cons, h x (List.mem_cons_self x xs),
      ih fun a ha => h a (List.mem_cons_of_mem x ha)]

/-- A produced record's decision is `auto` exactly when some candidate
reaches the auto-accept threshold (given a valid configuration). -/
lemma classifyA_decision_auto_iff (opts : MatchOptions) (a : NormalizedProduct)
    (bs : List NormalizedProduct)
    (hv : opts.reviewThreshold ≤ opts.autoAcceptThreshold)
    (rec : MatchRecord) (h : classifyA opts a bs = some rec) :
    rec.decision = Decision.auto ↔
      ∃ b ∈ bs, opts.autoAcceptThreshold ≤ confOf a b := by
  obtain ⟨c, hbm, hmem, hscores, hconf, hr, hreceq⟩ :=
    classifyA_some_spec opts a bs rec h
  have hd : rec.decision =
      if c.conf ≥ opts.autoAcceptThreshold then Decision.auto
      else Decision.review := by rw [hreceq]
  constructor
  · intro hdec
    rw [hd] at hdec
    by_cases hge : opts.autoAcceptThreshold ≤ c.conf
    · exact ⟨c.product, hmem, hconf ▸ hge⟩
    · rw [if_neg hge] at hdec
      exact absurd hdec (by simp)
  · rintro ⟨b, hb, hge⟩
    have hns := not_skip_of_le opts a b opts.autoAcceptThreshold hv hge
    obtain ⟨c', hc', hle⟩ := foldl_considerB_reaches opts a bs none b hb hns
    have hcc : some c = some c' := by
      rw [← hbm]
      exact hc'
    injection hcc with hcc
    subst hcc
    rw [hd]
    exact if_pos (le_trans hge hle)

/-- The `auto` count of a run only depends on which entities have a
candidate at or above the auto-accept threshold. -/
lemma countAuto_core (opts : MatchOptions) (as bs : List NormalizedProduct)
    (hv : opts.reviewThreshold ≤ opts.autoAcceptThreshold) :
    countAuto (matchCore as bs opts) =
      as.countP fun a =>
        decide (∃ b ∈ bs, opts.autoAcceptThreshold ≤ confOf a b) := by
  unfold countAuto
  rw [matchCore_matches, countP_filterMap]
  apply countP_congr'
  intro a _
  cases hca : classifyA opts a bs with
  | none =>
    have hall := (classifyA_eq_none_iff opts a bs).mp hca
    simp only [Option.map_none', Option.getD_none]
    symm
    rw [decide_eq_false]
    rintro ⟨b, hb, hge⟩
    have := hall b hb
    have := le_trans hv hge
    linarith
  | some rec =>
    simp only [Option.map_some', Option.getD_some]
    exact decide_eq_decide.mpr (classifyA_decision_auto_iff opts a bs hv rec hca)

/-- The unmatched-A count only depends on which entities have no
candidate at or above the review threshold. -/
lemma unmatchedA_length_core (opts : MatchOptions)
    (as bs : List NormalizedProduct) :
    (matchCore as bs opts).unmatchedA.length =
      as.countP fun a =>
        decide (∀ b ∈ bs, confOf a b < opts.reviewThreshold) := by
  have hproj : (matchCore as bs opts).unmatchedA =
      (as.filter fun a => (classifyA opts a bs).isNone).map summarizeProduct := rfl
  rw [hproj, List.length_map, ← List.countP_eq_length_filter]
  apply countP_congr'
  intro a _
  cases hca : classifyA opts a bs with
  | none =>
    have := (classifyA_eq_none_iff opts a bs).mp hca
    simp only [Option.isNone_none]
    exact (decide_eq_true this).symm
  | some rec =>
    have hnot : ¬ ∀ b ∈ bs, confOf a b < opts.reviewThreshold := by
      intro hall
      have := (classifyA_eq_none_iff opts a bs).mpr hall
      rw [hca] at this
      exact absurd this (by simp)
    simp only [Option.isNone_some]
    exact (decide_eq_false hnot).symm

/-- C1 (amended).  Every record `matchProducts` produces under a valid
configuration comes from a best candidate whose unrounded confidence is
at least the review threshold; the decision is `auto` exactly when that
unrounded confidence reaches the auto-accept threshold and `review`
exactly when it lies in the review band; the record's stored confidence
field is the rounding of that unrounded confidence (and may therefore
sit on the other side of a threshold). -/
theorem decision_thresholds (as bs : List NormalizedProduct)
    (o : PartialMatchOptions) (res : MatchResult)
    (hok : matchProducts as bs o = Except.ok res)
    (rec : MatchRecord) (hrec : rec ∈ res.matches) :
    ∃ a ∈ as, ∃ c : Cand,
      bestMatchFor (resolveOptions o) a bs = some c ∧
      c.conf = confOf a c.product ∧ c.product ∈ bs ∧
      rec.confidence = round2 c.conf ∧
      (resolveOptions o).reviewThreshold ≤ c.conf ∧
      (rec.decision = Decision.auto ↔
        (resolveOptions o).autoAcceptThreshold ≤ c.conf) ∧
      (rec.decision = Decision.review ↔
        ((resolveOptions o).reviewThreshold ≤ c.conf ∧
          c.conf < (resolveOptions o).autoAcceptThreshold)) := by
  obtain ⟨hres, hv⟩ := matchProducts_ok as bs o res hok
  subst hres
  rw [matchCore_matches] at hrec
  obtain ⟨a, ha, hca⟩ := List.mem_filterMap.mp hrec
  obtain ⟨c, hbm, hmem, hscores, hconf, hr, hreceq⟩ :=
    classifyA_some_spec (resolveOptions o) a bs rec hca
  have hd : rec.decision =
      if c.conf ≥ (resolveOptions o).autoAcceptThreshold then Decision.auto
      else Decision.review := by rw [hreceq]
  have hcf : rec.confidence = round2 c.conf := by rw [hreceq]
  refine ⟨a, ha, c, hbm, hconf, hmem, hcf, hr, ?_, ?_⟩
  · rw [hd]
    by_cases hge : (resolveOptions o).autoAcceptThreshold ≤ c.conf
    · rw [if_pos hge]
      exact iff_of_true rfl hge
    · rw [if_neg hge]
      exact iff_of_false (by simp) hge
  · rw [hd]
    by_cases hge : (resolveOptions o).autoAcceptThreshold ≤ c.conf
    · rw [if_pos hge]
      exact iff_of_false (by simp) fun hcontra => absurd hcontra.2 (not_lt.mpr hge)
    · rw [if_neg hge]
      exact iff_of_true rfl ⟨hr, not_le.mp hge⟩

/-- C1 counterexample.  In the run with auto-accept threshold 0.67 the
single produced record has decision `review` (the unrounded confidence
2/3 is below 0.67) while its stored rounded confidence 0.67 is not below
the threshold: "decision is auto iff the record's confidence reaches the
auto-accept threshold" is false of the stored field. -/
theorem decision_thresholds_cex :
    ¬ (∀ rec ∈ c1Matches,
        (rec.decision = Decision.auto ↔
          (resolveOptions c1Options).autoAcceptThreshold ≤ rec.confidence)) := by
  decide

/-- C1 witness: the amended theorem applied to the counterexample run. -/
theorem decision_thresholds_witness :
    ∃ a ∈ [c1ProductA], ∃ c : Cand,
      bestMatchFor (resolveOptions c1Options) a [c1ProductB] = some c ∧
      c.conf = confOf a c.product ∧ c.product ∈ [c1ProductB] ∧
      c1Record.confidence = round2 c.conf ∧
      (resolveOptions c1Options).reviewThreshold ≤ c.conf ∧
      (c1Record.decision = Decision.auto ↔
        (resolveOptions c1Options).autoAcceptThreshold ≤ c.conf) ∧
      (c1Record.decision = Decision.review ↔
        ((resolveOptions c1Options).reviewThreshold ≤ c.conf ∧
          c.conf < (resolveOptions c1Options).autoAcceptThreshold)) :=
  decision_thresholds [c1ProductA] [c1ProductB] c1Options
    (matchCore [c1ProductA] [c1ProductB] (resolveOptions c1Options))
    rfl c1Record (by decide)

/-- C6.  With the review threshold fixed, raising the auto-accept
threshold never increases the number of `auto` decisions; with the
auto-accept threshold fixed, raising the review threshold never
decreases the length of `unmatchedA`. -/
theorem threshold_monotonicity :
    (∀ (as bs : List NormalizedProduct) (r a1 a2 : ℚ)
        (res1 res2 : MatchResult),
      a1 ≤ a2 →
      matchProducts as bs ⟨some a1, some r⟩ = Except.ok res1 →
      matchProducts as bs ⟨some a2, some r⟩ = Except.ok res2 →
      countAuto res2 ≤ countAuto res1) ∧
    (∀ (as bs : List NormalizedProduct) (auto r1 r2 : ℚ)
        (res1 res2 : MatchResult),
      r1 ≤ r2 →
      matchProducts as bs ⟨some auto, some r1⟩ = Except.ok res1 →
      matchProducts as bs ⟨some auto, some r2⟩ = Except.ok res2 →
      res1.unmatchedA.length ≤ res2.unmatchedA.length) := by
  have hro : ∀ x y : ℚ,
      resolveOptions ⟨some x, some y⟩ = ⟨x, y⟩ := fun x y => rfl
  constructor
  · intro as bs r a1 a2 res1 res2 h12 hok1 hok2
    obtain ⟨hres1, hv1⟩ := matchProducts_ok _ _ _ _ hok1
    obtain ⟨hres2, hv2⟩ := matchProducts_ok _ _ _ _ hok2
    subst hres1
    subst hres2
    simp only [hro] at hv1 hv2 ⊢
    rw [countAuto_core ⟨a1, r⟩ as bs hv1, countAuto_core ⟨a2, r⟩ as bs hv2]
    apply List.countP_mono_left
    intro a _ h
    simp only [decide_eq_true_eq] at h ⊢
    obtain ⟨b, hb, hge⟩ := h
    exact ⟨b, hb, le_trans h12 hge⟩
  · intro as bs auto r1 r2 res1 res2 h12 hok1 hok2
    obtain ⟨hres1, hv1⟩ := matchProducts_ok _ _ _ _ hok1
    obtain ⟨hres2, hv2⟩ := matchProducts_ok _ _ _ _ hok2
    subst hres1
    subst hres2
    simp only [hro] at hv1 hv2 ⊢
    rw [unmatchedA_length_core, unmatchedA_length_core]
    apply List.countP_mono_left
    intro a _ h
    simp only [decide_eq_true_eq] at h ⊢
    intro b hb
    exact lt_of_lt_of_le (h b hb) h12

/-- C6 witness: the two monotonicity parts at a concrete one-pair run. -/
theorem threshold_monotonicity_witness :
    countAuto (c6Res (9/10) (1/2)) ≤ countAuto (c6Res (7/10) (1/2)) ∧
    (c6Res (8/10) (1/2)).unmatchedA.length ≤
      (c6Res (8/10) (7/10)).unmatchedA.length :=
  ⟨threshold_monotonicity.1 [c2ProductA1] [c2ProductB] (1/2) (7/10) (9/10)
      (c6Res (7/10) (1/2)) (c6Res (9/10) (1/2)) (by norm_num) rfl rfl,
   threshold_monotonicity.2 [c2ProductA1] [c2ProductB] (8/10) (1/2) (7/10)
      (c6Res (8/10) (1/2)) (c6Res (8/10) (7/10)) (by norm_num) rfl rfl⟩

/-- C2 (amended).  Under a valid configuration, every B identifier
appears in the matched-B identifiers or in `unmatchedB` and never in
both; when the B source identifiers are pairwise distinct, `unmatchedB`
carries no duplicates.  (A matched B identifier can appear in more than
one record — the one-sided greedy assignment never enforces 1:1
exclusivity.) -/
theorem b_partition (as bs : List NormalizedProduct) (o : PartialMatchOptions)
    (res : MatchResult) (hok : matchProducts as bs o = Except.ok res) :
    (∀ id : String, id ∈ bs.map (fun b => b.sourceId) ↔
      (id ∈ matchedBIdsOf res ∨ id ∈ unmatchedBIdsOf res)) ∧
    (∀ id : String, ¬ (id ∈ matchedBIdsOf res ∧ id ∈ unmatchedBIdsOf res)) ∧
    ((bs.map fun b => b.sourceId).Nodup → (unmatchedBIdsOf res).Nodup) := by
  obtain ⟨hres, hv⟩ := matchProducts_ok as bs o res hok
  subst hres
  have hub2 : unmatchedBIdsOf (matchCore as bs (resolveOptions o)) =
      (bs.filter fun b =>
        ¬ (matchedBIdsOf (matchCore as bs (resolveOptions o))).contains
          b.sourceId).map fun b => b.sourceId := by
    show ((bs.filter _).map summarizeProduct).map (fun s => s.sourceId) = _
    rw [List.map_map]
    rfl
  have hcontains : ∀ (l : List String) (s : String),
      l.contains s = true ↔ s ∈ l := fun l s =>
    ⟨fun h => List.mem_of_elem_eq_true h, fun h => List.elem_eq_true_of_mem h⟩
  have hsub : ∀ id ∈ matchedBIdsOf (matchCore as bs (resolveOptions o)),
      id ∈ bs.map fun b => b.sourceId := by
    intro id hid
    obtain ⟨rec, hrec, rfl⟩ := List.mem_map.mp hid
    rw [matchCore_matches] at hrec
    obtain ⟨a, ha, hca⟩ := List.mem_filterMap.mp hrec
    obtain ⟨c, _, hmem, _, _, _, hreceq⟩ :=
      classifyA_some_spec (resolveOptions o) a bs rec hca
    rw [hreceq]
    exact List.mem_map.mpr ⟨c.product, hmem, rfl⟩
  refine ⟨?_, ?_, ?_⟩
  · intro id
    constructor
    · intro hid
      obtain ⟨b, hb, rfl⟩ := List.mem_map.mp hid
      by_cases hcl : b.sourceId ∈ matchedBIdsOf (matchCore as bs (resolveOptions o))
      · exact Or.inl hcl
      · right
        rw [hub2]
        refine List.mem_map.mpr ⟨b, ?_, rfl⟩
        rw [List.mem_filter]
        refine ⟨hb, ?_⟩
        simp only [decide_eq_true_eq, hcontains]
        exact hcl
    · intro hid
      rcases hid with hid | hid
      · exact hsub id hid
      · rw [hub2] at hid
        obtain ⟨b, hb, rfl⟩ := List.mem_map.mp hid
        exact List.mem_map.mpr ⟨b, (List.mem_filter.mp hb).1, rfl⟩
  · rintro id ⟨hid1, hid2⟩
    rw [hub2] at hid2
    obtain ⟨b, hb, rfl⟩ := List.mem_map.mp hid2
    have hfb := (List.mem_filter.mp hb).2
    simp only [decide_eq_true_eq, hcontains] at hfb
    exact hfb hid1
  · intro hnd
    rw [hub2]
    have hsl : List.Sublist
        ((bs.filter fun b =>
          ¬ (matchedBIdsOf (matchCore as bs (resolveOptions o))).contains
            b.sourceId).map fun b => b.sourceId)
        (bs.map fun b => b.sourceId) := (List.filter_sublist bs).map _
    exact hnd.sublist hsl

/-- C2 counterexample.  Two identical A entities both claim the single B
entity: its identifier appears in two distinct MatchRecords, so "every
matched B identifier appears in exactly one MatchRecord" is false. -/
theorem b_partition_cex :
    ¬ (∀ id ∈ c2Matches.map fun m => m.productB.sourceId,
        (c2Matches.map fun m => m.productB.sourceId).count id = 1) := by
  decide

/-- C2 witness: the amended partition statement at the duplicate-claim
run. -/
theorem b_partition_witness :
    (∀ id : String, id ∈ [c2ProductB].map (fun b => b.sourceId) ↔
      (id ∈ matchedBIdsOf (matchCore [c2ProductA1, c2ProductA2] [c2ProductB]
          (resolveOptions {})) ∨
        id ∈ unmatchedBIdsOf (matchCore [c2ProductA1, c2ProductA2] [c2ProductB]
          (resolveOptions {})))) ∧
    (∀ id : String,
      ¬ (id ∈ matchedBIdsOf (matchCore [c2ProductA1, c2ProductA2] [c2ProductB]
          (resolveOptions {})) ∧
        id ∈ unmatchedBIdsOf (matchCore [c2ProductA1, c2ProductA2] [c2ProductB]
          (resolveOptions {})))) ∧
    (([c2ProductB].map fun b => b.sourceId).Nodup →
      (unmatchedBIdsOf (matchCore [c2ProductA1, c2ProductA2] [c2ProductB]
        (resolveOptions {}))).Nodup) :=
  b_partition [c2ProductA1, c2ProductA2] [c2ProductB] {}
    (matchCore [c2ProductA1, c2ProductA2] [c2ProductB] (resolveOptions {}))
    rfl

/-! ### The early skip is transparent (C7) -/

/-- Invariant linking the fold with the early skip to the fold without
it: either the two accumulators agree (and any retained candidate passed
the skip floor), or the skip side is empty while the other side holds a
candidate strictly below the skip floor. -/
lemma foldl_skip_invariant (opts : MatchOptions) (a : NormalizedProduct) :
    ∀ (bs : List NormalizedProduct) (x y : Option Cand),
      ((x = y ∧ ∀ c, y = some c →
          opts.reviewThreshold * (13/20) ≤ c.conf ∧ 0 ≤ c.conf) ∨
        (x = none ∧ ∃ c, y = some c ∧
          c.conf < opts.reviewThreshold * (13/20) ∧ 0 ≤ c.conf)) →
      ((bs.foldl (considerB opts a) x = bs.foldl (considerBNoSkip a) y ∧
          ∀ c, bs.foldl (considerBNoSkip a) y = some c →
            opts.reviewThreshold * (13/20) ≤ c.conf ∧ 0 ≤ c.conf) ∨
        (bs.foldl (considerB opts a) x = none ∧
          ∃ c, bs.foldl (considerBNoSkip a) y = some c ∧
            c.conf < opts.reviewThreshold * (13/20) ∧ 0 ≤ c.conf)) := by
  intro bs
  induction bs with
  | nil => intro x y h; simpa using h
  | cons b bs ih =>
    intro x y h
    rw [List.foldl_cons, List.foldl_cons]
    apply ih
    have hcb0 : 0 ≤ computeConfidence (computeFeatureScores a b) a b :=
      computeConfidence_nonneg _ _ _
    rcases h with ⟨heq, hinv⟩ | ⟨hxnone, c0, hy, hlt, h0⟩
    · subst heq
      by_cases hskip : computeConfidence (computeFeatureScores a b) a b <
          opts.reviewThreshold * (13/20)
      · have hB : considerB opts a x b = x := by
          simp only [considerB]
          rw [if_pos hskip]
        cases x with
        | none =>
          right
          refine ⟨by rw [hB], ?_⟩
          refine ⟨⟨b, computeConfidence (computeFeatureScores a b) a b,
            computeFeatureScores a b⟩, ?_, hskip, hcb0⟩
          simp [considerBNoSkip]
        | some c0 =>
          left
          have hfloor := (hinv c0 rfl).1
          have hng : ¬ (computeConfidence (computeFeatureScores a b) a b > c0.conf) :=
            not_lt.mpr (le_of_lt (lt_of_lt_of_le hskip hfloor))
          have hNS : considerBNoSkip a (some c0) b = some c0 := by
            simp only [considerBNoSkip]
            rw [if_neg hng]
          rw [hB, hNS]
          exact ⟨rfl, hinv⟩
      · have hBeq : considerB opts a x b = considerBNoSkip a x b := by
          simp only [considerB, considerBNoSkip]
          rw [if_neg hskip]
        rw [hBeq]
        left
        refine ⟨rfl, ?_⟩
        intro c hc
        cases x with
        | none =>
          simp only [considerBNoSkip] at hc
          cases hc
          exact ⟨not_lt.mp hskip, hcb0⟩
        | some c0 =>
          simp only [considerBNoSkip] at hc
          by_cases hgt : computeConfidence (computeFeatureScores a b) a b > c0.conf
          · rw [if_pos hgt] at hc
            cases hc
            exact ⟨not_lt.mp hskip, hcb0⟩
          · rw [if_neg hgt] at hc
            cases hc
            exact hinv _ rfl
    · subst hxnone
      subst hy
      by_cases hskip : computeConfidence (computeFeatureScores a b) a b <
          opts.reviewThreshold * (13/20)
      · right
        have hB : considerB opts a none b = none := by
          simp only [considerB]
          rw [if_pos hskip]
        refine ⟨by rw [hB], ?_⟩
        simp only [considerBNoSkip]
        by_cases hgt : computeConfidence (computeFeatureScores a b) a b > c0.conf
        · rw [if_pos hgt]
          exact ⟨_, rfl, hskip, hcb0⟩
        · rw [if_neg hgt]
          exact ⟨c0, rfl, hlt, h0⟩
      · left
        have hB : considerB opts a none b =
            some ⟨b, computeConfidence (computeFeatureScores a b) a b,
              computeFeatureScores a b⟩ := by
          simp only [considerB]
          rw [if_neg hskip]
        have hgt : computeConfidence (computeFeatureScores a b) a b > c0.conf :=
          lt_of_lt_of_le hlt (not_lt.mp hskip)
        have hNS : considerBNoSkip a (some c0) b =
            some ⟨b, computeConfidence (computeFeatureScores a b) a b,
              computeFeatureScores a b⟩ := by
          simp only [considerBNoSkip]
          rw [if_pos hgt]
        rw [hB, hNS]
        refine ⟨rfl, ?_⟩
        intro c hc
        cases hc
        exact ⟨not_lt.mp hskip, hcb0⟩

/-- Per-entity outcomes agree with and without the early skip. -/
lemma classifyA_eq_noSkip (opts : MatchOptions) (a : NormalizedProduct)
    (bs : List NormalizedProduct) :
    classifyA opts a bs = classifyANoSkip opts a bs := by
  have h := foldl_skip_invariant opts a bs none none
    (Or.inl ⟨rfl, fun c hc => absurd hc (by simp)⟩)
  rcases h with ⟨heq, hinv⟩ | ⟨hnone, c, hy, hlt, h0⟩
  · simp only [classifyA, classifyANoSkip, bestMatchFor, bestMatchForNoSkip]
    rw [heq]
  · have hr : 0 < opts.reviewThreshold := by
      by_contra hrc
      push_neg at hrc
      have h1 : opts.reviewThreshold * (13/20) ≤ 0 * (13/20) :=
        mul_le_mul_of_nonneg_right hrc (by norm_num)
      rw [zero_mul] at h1
      linarith
    have hlt' : c.conf < opts.reviewThreshold := by nlinarith
    simp only [classifyA, classifyANoSkip, bestMatchFor, bestMatchForNoSkip,
      hnone, hy]
    rw [if_pos hlt']

/-- The matcher body with and without the early skip agree. -/
lemma matchCore_eq_noSkip (as bs : List NormalizedProduct)
    (opts : MatchOptions) :
    matchCore as bs opts = matchCoreNoSkip as bs opts := by
  have hcl : ∀ a, classifyA opts a bs = classifyANoSkip opts a bs :=
    fun a => classifyA_eq_noSkip opts a bs
  simp only [matchCore, matchCoreNoSkip]
  rw [List.filterMap_congr fun a _ => hcl a,
    List.filter_congr fun a _ => by rw [hcl a]]

/-- C7.  The early-skip short-circuit is not a correctness boundary: for
every pair of input lists and every option record, `matchProducts`
equals the same algorithm with the skip removed (best candidate by
strictly highest confidence, first-seen wins ties) — same matches in the
same order, same unmatchedA, same unmatchedB, same error behaviour. -/
theorem early_skip_transparent (productsA productsB : List NormalizedProduct)
    (options : PartialMatchOptions) :
    matchProducts productsA productsB options =
      matchProductsNoSkip productsA productsB options := by
  simp only [matchProducts, matchProductsNoSkip]
  by_cases h : (resolveOptions options).reviewThreshold >
      (resolveOptions options).autoAcceptThreshold
  · rw [if_pos h, if_pos h]
  · rw [if_neg h, if_neg h, matchCore_eq_noSkip]

/-! ### Name normalization idempotence (C4) -/

/-- A `fl oz` match consumes characters. -/
lemma flOzMatch_length (l r : List Char) (h : flOzMatch l = some r) :
    r.length < l.length := by
  unfold flOzMatch at h
  split at h
  next rest =>
    split at h
    next r0 heq =>
      injection h with h
      subst h
      have h1 := (List.dropWhile_suffix isWsChar
        (l := if rest.head? = some '.' then rest.tail else rest)).length_le
      rw [heq] at h1
      have h2 : (if rest.head? = some '.' then rest.tail else rest).length ≤
          rest.length := by
        split
        · simp [List.length_tail]
        · exact le_refl _
      simp only [List.length_cons] at h1 ⊢
      omega
    next => exact absurd h (by simp)
  next => exact absurd h (by simp)

/-- An `ounces?` match consumes characters. -/
lemma ounceMatch_length (l r : List Char) (h : ounceMatch l = some r) :
    r.length < l.length := by
  unfold ounceMatch at h
  split at h
  next rest =>
    split at h
    · injection h with h
      subst h
      simp only [List.length_cons, List.length_tail]
      omega
    · injection h with h
      subst h
      simp only [List.length_cons]
      omega
  next => exact absurd h (by simp)

/-- Shape of an `oz.` match. -/
lemma ozDotMatch_eq (l r : List Char) (h : ozDotMatch l = some r) :
    l = 'o' :: 'z' :: '.' :: r := by
  unfold ozDotMatch at h
  split at h
  next rest =>
    injection h with h
    subst h
    rfl
  next => exact absurd h (by simp)

/-- An `oz.` match consumes characters. -/
lemma ozDotMatch_length (l r : List Char) (h : ozDotMatch l = some r) :
    r.length < l.length := by
  rw [ozDotMatch_eq l r h]
  simp only [List.length_cons]
  omega

/-- Without any match the global replacement is the identity. -/
lemma gReplF_eq_self (f : List Char → Option (List Char)) (repl : List Char) :
    ∀ (n : Nat) (l : List Char), l.length ≤ n → hasMatch f l = false →
      gReplF f repl n l = l := by
  intro n
  induction n with
  | zero => intro l _ _; rfl
  | succ n ih =>
    intro l hl hm
    cases l with
    | nil => rfl
    | cons c cs =>
      simp only [hasMatch, Bool.or_eq_false_iff] at hm
      cases hf : f (c :: cs) with
      | some rest =>
        rw [hf] at hm
        simp at hm
      | none =>
        simp only [gReplF, hf]
        rw [ih cs (by simpa using Nat.le_of_succ_le_succ (by simpa using hl)) hm.2]

/-- A scan hit is a suffix at which the matcher fires. -/
lemma hasMatch_eq_true_iff (f : List Char → Option (List Char)) (l : List Char) :
    hasMatch f l = true ↔
      ∃ t, List.IsSuffix t l ∧ (f t).isSome = true := by
  induction l with
  | nil =>
    simp only [hasMatch]
    constructor
    · intro h
      exact ⟨[], List.suffix_rfl, h⟩
    · rintro ⟨t, ht, hf⟩
      rw [List.suffix_nil.mp ht] at hf
      exact hf
  | cons c cs ih =>
    simp only [hasMatch, Bool.or_eq_true, ih]
    constructor
    · rintro (h | ⟨t, ht, hf⟩)
      · exact ⟨c :: cs, List.suffix_rfl, h⟩
      · exact ⟨t, ht.trans (List.suffix_cons c cs), hf⟩
    · rintro ⟨t, ht, hf⟩
      rcases List.suffix_cons_iff.mp ht with rfl | ht'
      · exact Or.inl hf
      · exact Or.inr ⟨t, ht', hf⟩

/-- A prefix of a replacement output that never mentions `'o'` already
occurred in the input (the emitted text always starts with `'o'`). -/
lemma gReplF_prefix_reflect (f : List Char → Option (List Char)) :
    ∀ (n : Nat) (l q : List Char), l.length ≤ n → (∀ c ∈ q, c ≠ 'o') →
      q <+: gReplF f ['o', 'z'] n l → q <+: l := by
  intro n
  induction n with
  | zero => intro l q _ _ h; exact h
  | succ n ih =>
    intro l q hl hq h
    cases l with
    | nil => simpa [gReplF] using h
    | cons c cs =>
      cases hm : f (c :: cs) with
      | some rest =>
        simp only [gReplF, hm] at h
        cases q with
        | nil => exact List.nil_prefix
        | cons q0 q' =>
          rw [List.cons_append, List.cons_prefix_cons] at h
          exact absurd h.1 (hq q0 (List.mem_cons_self _ _))
      | none =>
        simp only [gReplF, hm] at h
        cases q with
        | nil => exact List.nil_prefix
        | cons q0 q' =>
          rw [List.cons_prefix_cons] at h ⊢
          refine ⟨h.1, ih cs q' ?_ (fun d hd => hq d (List.mem_cons_of_mem _ hd)) h.2⟩
          simp only [List.length_cons] at hl
          omega

/-- The `ounces?` matcher fires on any text starting with `ounce`. -/
lemma ounceMatch_isSome_of_prefix (l : List Char)
    (h : ['o', 'u', 'n', 'c', 'e'] <+: l) : (ounceMatch l).isSome = true := by
  obtain ⟨t, ht⟩ := h
  subst ht
  show (ounceMatch ('o' :: 'u' :: 'n' :: 'c' :: 'e' :: t)).isSome = true
  simp only [ounceMatch]
  split <;> rfl

/-- Whenever the `ounces?` matcher fires, `ounce` is a prefix of the text. -/
lemma ounceMatch_prefix_of_isSome (l : List Char)
    (h : (ounceMatch l).isSome = true) : ['o', 'u', 'n', 'c', 'e'] <+: l := by
  unfold ounceMatch at h
  split at h
  next rest => exact ⟨rest, rfl⟩
  next => simp at h

/-- After the `ounces?` global replacement the word `ounce` never occurs. -/
lemma replOunce_no_ounce :
    ∀ (n : Nat) (l : List Char), l.length ≤ n →
      ¬ (['o', 'u', 'n', 'c', 'e'] <:+: gReplF ounceMatch ['o', 'z'] n l) := by
  intro n
  induction n with
  | zero =>
    intro l hl h
    rw [List.length_eq_zero.mp (Nat.le_zero.mp hl)] at h
    simp [gReplF] at h
  | succ n ih =>
    intro l hl h
    cases l with
    | nil => simp [gReplF] at h
    | cons c cs =>
      simp only [List.length_cons] at hl
      cases hm : ounceMatch (c :: cs) with
      | some rest =>
        simp only [gReplF, hm, List.cons_append, List.nil_append] at h
        have hlen := ounceMatch_length _ _ hm
        simp only [List.length_cons] at hlen
        rcases List.infix_cons_iff.mp h with hp | h2
        · rw [List.cons_prefix_cons] at hp
          obtain ⟨_, hp2⟩ := hp
          rw [List.cons_prefix_cons] at hp2
          exact absurd hp2.1 (by decide)
        rcases List.infix_cons_iff.mp h2 with hp | h3
        · rw [List.cons_prefix_cons] at hp
          exact absurd hp.1 (by decide)
        · exact ih rest (by omega) h3
      | none =>
        simp only [gReplF, hm] at h
        rcases List.infix_cons_iff.mp h with hp | h2
        · rw [List.cons_prefix_cons] at hp
          obtain ⟨hc, hp'⟩ := hp
          have hunce : ['u', 'n', 'c', 'e'] <+: cs :=
            gReplF_prefix_reflect ounceMatch n cs _ (by omega) (by decide) hp'
          have hpre : ['o', 'u', 'n', 'c', 'e'] <+: c :: cs := by
            rw [List.cons_prefix_cons]
            exact ⟨hc, hunce⟩
          have hsome := ounceMatch_isSome_of_prefix _ hpre
          rw [hm] at hsome
          simp at hsome
        · exact ih cs (by omega) h2

/-- The `oz.` global replacement introduces no occurrence of `ounce`. -/
lemma replOzDot_no_ounce :
    ∀ (n : Nat) (l : List Char), l.length ≤ n →
      ¬ (['o', 'u', 'n', 'c', 'e'] <:+: l) →
      ¬ (['o', 'u', 'n', 'c', 'e'] <:+: gReplF ozDotMatch ['o', 'z'] n l) := by
  intro n
  induction n with
  | zero =>
    intro l _ hno h
    exact hno h
  | succ n ih =>
    intro l hl hno h
    cases l with
    | nil => simp [gReplF] at h
    | cons c cs =>
      simp only [List.length_cons] at hl
      cases hm : ozDotMatch (c :: cs) with
      | some rest =>
        have hshape := ozDotMatch_eq _ _ hm
        simp only [gReplF, hm, List.cons_append, List.nil_append] at h
        have hrest_no : ¬ (['o', 'u', 'n', 'c', 'e'] <:+: rest) := by
          intro hx
          apply hno
          rw [hshape]
          exact hx.trans
            (List.IsSuffix.isInfix ⟨['o', 'z', '.'], rfl⟩)
        rcases List.infix_cons_iff.mp h with hp | h2
        · rw [List.cons_prefix_cons] at hp
          obtain ⟨_, hp2⟩ := hp
          rw [List.cons_prefix_cons] at hp2
          exact absurd hp2.1 (by decide)
        rcases List.infix_cons_iff.mp h2 with hp | h3
        · rw [List.cons_prefix_cons] at hp
          exact absurd hp.1 (by decide)
        · have hlen : rest.length ≤ n := by
            have hce : ('o' :: 'z' :: '.' :: rest : List Char).length =
                rest.length + 3 := by simp
            have : (c :: cs : List Char).length = rest.length + 3 := by
              rw [hshape, hce]
            simp only [List.length_cons] at this
            omega
          exact ih rest hlen hrest_no h3
      | none =>
        simp only [gReplF, hm] at h
        rcases List.infix_cons_iff.mp h with hp | h2
        · rw [List.cons_prefix_cons] at hp
          obtain ⟨hc, hp'⟩ := hp
          have hunce : ['u', 'n', 'c', 'e'] <+: cs :=
            gReplF_prefix_reflect ozDotMatch n cs _ (by omega) (by decide) hp'
          apply hno
          refine List.infix_cons_iff.mpr (Or.inl ?_)
          rw [List.cons_prefix_cons]
          exact ⟨hc, hunce⟩
        · exact ih cs (by omega)
            (fun hx => hno (List.infix_cons_iff.mpr (Or.inr hx))) h2

/-- A space-free prefix of a whitespace-flattening map output reflects
to the input. -/
lemma prefix_map_reflect (f : Char → Char) (hfc : ∀ c, f c = c ∨ f c = ' ') :
    ∀ (q l : List Char), (∀ c ∈ q, c ≠ ' ') → q <+: l.map f → q <+: l := by
  intro q
  induction q with
  | nil => intro l _ _; exact List.nil_prefix
  | cons a q' ihq =>
    intro l hq h
    cases l with
    | nil => simp at h
    | cons c cs =>
      rw [List.map_cons, List.cons_prefix_cons] at h
      obtain ⟨ha, h'⟩ := h
      have hac : a = c := by
        rcases hfc c with hfc' | hfc'
        · rw [hfc'] at ha; exact ha
        · rw [hfc'] at ha; exact absurd ha (hq a (List.mem_cons_self _ _))
      rw [List.cons_prefix_cons]
      exact ⟨hac, ihq cs (fun d hd => hq d (List.mem_cons_of_mem _ hd)) h'⟩

/-- A space-free infix of a whitespace-flattening map output reflects
to the input. -/
lemma infix_map_reflect (f : Char → Char) (hfc : ∀ c, f c = c ∨ f c = ' ')
    (q : List Char) (hq : ∀ c ∈ q, c ≠ ' ') :
    ∀ l, q <:+: l.map f → q <:+: l := by
  intro l
  induction l with
  | nil => intro h; exact h
  | cons c cs ih =>
    intro h
    rw [List.map_cons] at h
    rcases List.infix_cons_iff.mp h with hp | h2
    · refine List.infix_cons_iff.mpr (Or.inl ?_)
      exact prefix_map_reflect f hfc q (c :: cs) hq (by rw [List.map_cons]; exact hp)
    · exact List.infix_cons_iff.mpr (Or.inr (ih h2))

/-- Collapsing double spaces keeps the head character. -/
lemma squeeze_cons (c : Char) (cs : List Char) :
    ∃ t, squeeze (c :: cs) = c :: t := by
  induction cs generalizing c with
  | nil => exact ⟨[], rfl⟩
  | cons b rest ih =>
    by_cases hsp : c = ' ' ∧ b = ' '
    · obtain ⟨t, ht⟩ := ih b
      refine ⟨t, ?_⟩
      simp only [squeeze]
      rw [if_pos hsp, ht, hsp.1, hsp.2]
    · exact ⟨squeeze (b :: rest), by simp only [squeeze]; rw [if_neg hsp]⟩

/-- Collapsing double spaces leaves no double space. -/
lemma squeeze_no_double (l : List Char) : ¬ ([' ', ' '] <:+: squeeze l) := by
  induction l using squeeze.induct with
  | case1 => intro h; simp [squeeze] at h
  | case2 c =>
    intro h
    have := h.sublist.length_le
    simp [squeeze] at this
  | case3 a b rest hab ih =>
    simp only [squeeze, if_pos hab]
    exact ih
  | case4 a b rest hab ih =>
    simp only [squeeze, if_neg hab]
    intro h
    rcases List.infix_cons_iff.mp h with hp | h2
    · rw [List.cons_prefix_cons] at hp
      obtain ⟨ha, hp'⟩ := hp
      obtain ⟨t, ht⟩ := squeeze_cons b rest
      rw [ht, List.cons_prefix_cons] at hp'
      exact hab ⟨ha.symm, hp'.1.symm⟩
    · exact ih h2

/-- A list without double spaces is fixed by `squeeze`. -/
lemma squeeze_eq_self (l : List Char) (h : ¬ ([' ', ' '] <:+: l)) :
    squeeze l = l := by
  induction l using squeeze.induct with
  | case1 => rfl
  | case2 c => rfl
  | case3 a b rest hab ih =>
    exfalso
    apply h
    refine List.infix_cons_iff.mpr (Or.inl ?_)
    rw [List.cons_prefix_cons]
    refine ⟨hab.1.symm, ?_⟩
    rw [List.cons_prefix_cons]
    exact ⟨hab.2.symm, List.nil_prefix⟩
  | case4 a b rest hab ih =>
    simp only [squeeze, if_neg hab]
    rw [ih (fun hx => h (List.infix_cons_iff.mpr (Or.inr hx)))]

/-- Members of the squeezed list come from the original list. -/
lemma mem_squeeze (l : List Char) (c : Char) (h : c ∈ squeeze l) : c ∈ l := by
  induction l using squeeze.induct with
  | case1 => exact h
  | case2 d => exact h
  | case3 a b rest hab ih =>
    simp only [squeeze, if_pos hab] at h
    exact List.mem_cons_of_mem _ (ih h)
  | case4 a b rest hab ih =>
    simp only [squeeze, if_neg hab] at h
    rcases List.mem_cons.mp h with rfl | h'
    · exact List.mem_cons_self _ _
    · exact List.mem_cons_of_mem _ (ih h')

/-- A space-free prefix of the squeezed list is a prefix of the original. -/
lemma prefix_squeeze_reflect (q : List Char) (hq : ∀ c ∈ q, c ≠ ' ') :
    ∀ l, q <+: squeeze l → q <+: l := by
  intro l
  induction l using squeeze.induct generalizing q with
  | case1 => intro h; exact h
  | case2 c => intro h; exact h
  | case3 a b rest hab ih =>
    intro h
    simp only [squeeze, if_pos hab] at h
    cases q with
    | nil => exact List.nil_prefix
    | cons q0 q' =>
      have h' := ih (q0 :: q') hq h
      rw [List.cons_prefix_cons] at h'
      exact absurd (h'.1.trans hab.2) (hq q0 (List.mem_cons_self _ _))
  | case4 a b rest hab ih =>
    intro h
    simp only [squeeze, if_neg hab] at h
    cases q with
    | nil => exact List.nil_prefix
    | cons q0 q' =>
      rw [List.cons_prefix_cons] at h ⊢
      exact ⟨h.1, ih q' (fun d hd => hq d (List.mem_cons_of_mem _ hd)) h.2⟩

/-- A space-free infix of the squeezed list is an infix of the original. -/
lemma infix_squeeze_reflect (q : List Char) (hq : ∀ c ∈ q, c ≠ ' ') :
    ∀ l, q <:+: squeeze l → q <:+: l := by
  intro l
  induction l using squeeze.induct with
  | case1 => intro h; exact h
  | case2 c => intro h; exact h
  | case3 a b rest hab ih =>
    intro h
    simp only [squeeze, if_pos hab] at h
    exact List.infix_cons_iff.mpr (Or.inr (ih h))
  | case4 a b rest hab ih =>
    intro h
    simp only [squeeze, if_neg hab] at h
    rcases List.infix_cons_iff.mp h with hp | h2
    · cases q with
      | nil => exact List.infix_cons_iff.mpr (Or.inl List.nil_prefix)
      | cons q0 q' =>
        rw [List.cons_prefix_cons] at hp
        refine List.infix_cons_iff.mpr (Or.inl ?_)
        rw [List.cons_prefix_cons]
        exact ⟨hp.1, prefix_squeeze_reflect q'
          (fun d hd => hq d (List.mem_cons_of_mem _ hd)) _ hp.2⟩
    · exact List.infix_cons_iff.mpr (Or.inr (ih h2))

/-- The head survivor of `dropWhile` refutes the predicate. -/
lemma dropWhile_head_not (p : Char → Bool) (l : List Char) :
    ∀ c, (l.dropWhile p).head? = some c → p c = false := by
  induction l with
  | nil => intro c h; simp at h
  | cons a as ih =>
    intro c h
    by_cases hp : p a
    · rw [List.dropWhile_cons_of_pos hp] at h
      exact ih c h
    · rw [List.dropWhile_cons_of_neg hp] at h
      simp only [List.head?_cons, Option.some.injEq] at h
      subst h
      exact (Bool.not_eq_true _).mp hp

/-- A list whose head is not whitespace is fixed by `trimLeft`. -/
lemma trimLeft_eq_self (l : List Char)
    (h : ∀ c, l.head? = some c → isWsChar c = false) : trimLeft l = l := by
  cases l with
  | nil => rfl
  | cons a as =>
    have ha := h a rfl
    simp [trimLeft, List.dropWhile_cons, ha]

/-- Members survive `trimWs` only if they were in the original list. -/
lemma mem_trimWs (l : List Char) (c : Char) (h : c ∈ trimWs l) : c ∈ l := by
  unfold trimWs trimLeft at h
  have h1 := (List.dropWhile_suffix isWsChar).subset h
  rw [List.mem_reverse] at h1
  have h2 := (List.dropWhile_suffix isWsChar).subset h1
  rw [List.mem_reverse] at h2
  exact h2

/-- An infix of a reversed list reflects (reversed) to the list. -/
lemma infix_of_infix_reverse (q l : List Char) (h : q <:+: l.reverse) :
    q.reverse <:+: l := by
  rw [← List.reverse_reverse q] at h
  exact List.reverse_infix.mp h

/-- An infix of `trimLeft l` is an infix of `l`. -/
lemma infix_trimLeft (q l : List Char) (h : q <:+: trimLeft l) : q <:+: l :=
  h.trans (List.dropWhile_suffix isWsChar).isInfix

/-- An infix of `trimWs l` is an infix of `l`. -/
lemma infix_trimWs (q l : List Char) (h : q <:+: trimWs l) : q <:+: l := by
  unfold trimWs at h
  have h1 : q.reverse <:+: trimLeft l.reverse :=
    infix_of_infix_reverse _ _ (infix_trimLeft _ _ h)
  have h2 : q.reverse.reverse <:+: l :=
    infix_of_infix_reverse _ _ (infix_trimLeft _ _ h1)
  simpa using h2

/-- The last character of a trimmed list is not whitespace. -/
lemma trimWs_getLast (l : List Char) :
    ∀ c, (trimWs l).getLast? = some c → isWsChar c = false := by
  intro c hc
  by_cases hu : trimWs l = []
  · rw [hu] at hc
    simp at hc
  · obtain ⟨s, hs⟩ :=
      List.dropWhile_suffix (l := (trimLeft l.reverse).reverse) isWsChar
    have heq : ((trimLeft l.reverse).reverse).getLast? = (trimWs l).getLast? := by
      conv_lhs => rw [← hs]
      exact List.getLast?_append_of_ne_nil s hu
    rw [← heq, List.getLast?_reverse] at hc
    exact dropWhile_head_not isWsChar l.reverse c hc

/-- Trimming is idempotent. -/
lemma trimWs_trimWs (l : List Char) : trimWs (trimWs l) = trimWs l := by
  have hhead : ∀ c, (trimWs l).head? = some c → isWsChar c = false := by
    intro c hc
    exact dropWhile_head_not isWsChar _ c hc
  have hlast := trimWs_getLast l
  show trimLeft (trimLeft (trimWs l).reverse).reverse = trimWs l
  have h1 : trimLeft (trimWs l).reverse = (trimWs l).reverse := by
    apply trimLeft_eq_self
    intro c hc
    rw [List.head?_reverse] at hc
    exact hlast c hc
  rw [h1, List.reverse_reverse]
  exact trimLeft_eq_self _ hhead

/-- Every character of a normalized name is a lower-case letter, a digit,
or a space. -/
lemma mem_normalizeNameL (x : List Char) :
    ∀ c ∈ normalizeNameL x, isLowerAlnum c = true ∨ c = ' ' := by
  intro c hc
  have h1 := mem_trimWs _ _ hc
  have h2 := mem_squeeze _ _ h1
  obtain ⟨d, hd, hdc⟩ := List.mem_map.mp h2
  by_cases hws : isWsChar d = true
  · simp only [if_pos hws] at hdc
    exact Or.inr hdc.symm
  · simp only [if_neg hws] at hdc
    subst hdc
    obtain ⟨e, he, hed⟩ := List.mem_map.mp hd
    by_cases hcl : (isLowerAlnum e || isWsChar e) = true
    · simp only [if_pos hcl] at hed
      subst hed
      rw [Bool.or_eq_true] at hcl
      rcases hcl with h' | h'
      · exact Or.inl h'
      · exact absurd h' hws
    · simp only [if_neg hcl] at hed
      subst hed
      exact absurd (by decide : isWsChar ' ' = true) hws

/-- Lower-casing fixes lower-case letters, digits and the space. -/
lemma asciiLower_eq_self (c : Char) (h : isLowerAlnum c = true ∨ c = ' ') :
    asciiLower c = c := by
  unfold asciiLower
  rw [if_neg]
  rintro ⟨h1, h2⟩
  rcases h with h | rfl
  · simp only [isLowerAlnum, Bool.or_eq_true, Bool.and_eq_true,
      decide_eq_true_eq] at h
    simp only [Char.le_def] at h1 h2
    have a1 : (65 : Nat) ≤ c.val.toNat := h1
    have a2 : c.val.toNat ≤ 90 := h2
    rcases h with ⟨h3, _⟩ | ⟨_, h4⟩
    · simp only [Char.le_def] at h3
      have a3 : (97 : Nat) ≤ c.val.toNat := h3
      omega
    · simp only [Char.le_def] at h4
      have a4 : c.val.toNat ≤ 57 := h4
      omega
  · exact absurd h1 (by decide)

/-- Letters and digits are not whitespace. -/
lemma isWsChar_eq_false_of_isLowerAlnum (c : Char) (h : isLowerAlnum c = true) :
    isWsChar c = false := by
  cases hw : isWsChar c with
  | false => rfl
  | true =>
    exfalso
    simp only [isWsChar, Bool.or_eq_true, decide_eq_true_eq] at hw
    rcases hw with ((rfl | rfl) | rfl) | rfl <;> exact absurd h (by decide)

/-- A map whose function fixes every member is the identity. -/
lemma map_eq_self {f : Char → Char} {l : List Char} (h : ∀ c ∈ l, f c = c) :
    l.map f = l :=
  (List.map_congr_left h).trans (List.map_id l)

/-- C4, amended: `normalizeName` restricted to character lists is
idempotent whenever the once-normalized text has no residual
`fl oz` pattern occurrence. -/
lemma normalizeNameL_idem (x : List Char)
    (h : hasMatch flOzMatch (normalizeNameL x) = false) :
    normalizeNameL (normalizeNameL x) = normalizeNameL x := by
  have hF1 : ∀ c ∈ normalizeNameL x, isLowerAlnum c = true ∨ c = ' ' :=
    mem_normalizeNameL x
  have hF2 : ¬ ([' ', ' '] <:+: normalizeNameL x) := by
    intro h2
    exact squeeze_no_double _ (infix_trimWs _ _ h2)
  have hF4 : ¬ (['o', 'u', 'n', 'c', 'e'] <:+: normalizeNameL x) := by
    intro h4
    have h5 := infix_trimWs _ _ h4
    have h6 := infix_squeeze_reflect _ (by decide) _ h5
    have h7 := infix_map_reflect (fun c => if isWsChar c then ' ' else c)
      (fun c => by by_cases hw : isWsChar c = true <;> simp [hw])
      _ (by decide) _ h6
    have h8 := infix_map_reflect
      (fun c => if isLowerAlnum c || isWsChar c then c else ' ')
      (fun c => by by_cases hw : (isLowerAlnum c || isWsChar c) = true <;> simp [hw])
      _ (by decide) _ h7
    have h9 := infix_map_reflect (fun c => if c = '-' then ' ' else c)
      (fun c => by by_cases hw : c = '-' <;> simp [hw])
      _ (by decide) _ h8
    exact replOzDot_no_ounce _ _ (le_refl _)
      (replOunce_no_ounce _ _ (le_refl _)) h9
  have hOunceF : hasMatch ounceMatch (normalizeNameL x) = false := by
    cases hb : hasMatch ounceMatch (normalizeNameL x) with
    | false => rfl
    | true =>
      exfalso
      obtain ⟨t, hsuf, hsome⟩ := (hasMatch_eq_true_iff _ _).mp hb
      have hpre := ounceMatch_prefix_of_isSome t hsome
      exact hF4 (hpre.isInfix.trans hsuf.isInfix)
  have hOzDotF : hasMatch ozDotMatch (normalizeNameL x) = false := by
    cases hb : hasMatch ozDotMatch (normalizeNameL x) with
    | false => rfl
    | true =>
      exfalso
      obtain ⟨t, hsuf, hsome⟩ := (hasMatch_eq_true_iff _ _).mp hb
      cases hm : ozDotMatch t with
      | none => rw [hm] at hsome; simp at hsome
      | some r =>
        have hdot : '.' ∈ t := by
          rw [ozDotMatch_eq t r hm]
          simp
        rcases hF1 '.' (hsuf.subset hdot) with hcl | hcl
        · exact absurd hcl (by decide)
        · exact absurd hcl (by decide)
  have e1 : lowerList (normalizeNameL x) = normalizeNameL x :=
    map_eq_self (fun c hc => asciiLower_eq_self c (hF1 c hc))
  have e2 : gRepl flOzMatch ['o', 'z'] (normalizeNameL x) = normalizeNameL x :=
    gReplF_eq_self _ _ _ _ (le_refl _) h
  have e3 : gRepl ounceMatch ['o', 'z'] (normalizeNameL x) = normalizeNameL x :=
    gReplF_eq_self _ _ _ _ (le_refl _) hOunceF
  have e4 : gRepl ozDotMatch ['o', 'z'] (normalizeNameL x) = normalizeNameL x :=
    gReplF_eq_self _ _ _ _ (le_refl _) hOzDotF
  have e5 : stripDashes (normalizeNameL x) = normalizeNameL x := by
    refine map_eq_self (fun c hc => ?_)
    have hne : c ≠ '-' := by
      rcases hF1 c hc with h1 | rfl
      · intro he
        rw [he] at h1
        exact absurd h1 (by decide)
      · decide
    simp [hne]
  have e6 : stripNonAlnum (normalizeNameL x) = normalizeNameL x := by
    refine map_eq_self (fun c hc => ?_)
    have hcl : (isLowerAlnum c || isWsChar c) = true := by
      rcases hF1 c hc with h1 | rfl
      · simp [h1]
      · decide
    simp [hcl]
  have e7 : mapWsToSpace (normalizeNameL x) = normalizeNameL x := by
    refine map_eq_self (fun c hc => ?_)
    rcases hF1 c hc with h1 | rfl
    · simp [isWsChar_eq_false_of_isLowerAlnum c h1]
    · rfl
  have e8 : squeeze (normalizeNameL x) = normalizeNameL x :=
    squeeze_eq_self _ hF2
  have hTrim : trimWs (normalizeNameL x) = normalizeNameL x :=
    trimWs_trimWs _
  show trimWs (collapseWs (stripNonAlnum (stripDashes
    (gRepl ozDotMatch ['o', 'z']
      (gRepl ounceMatch ['o', 'z']
        (gRepl flOzMatch ['o', 'z'] (lowerList (normalizeNameL x)))))))) =
    normalizeNameL x
  rw [e1, e2, e3, e4, e5, e6]
  show trimWs (squeeze (mapWsToSpace (normalizeNameL x))) = normalizeNameL x
  rw [e7, e8]
  exact hTrim

/-- C4 (amended): `normalizeName` is idempotent on every input whose
normalized form carries no residual occurrence of the `fl oz` pattern
(`fl`, optional dot, whitespace run, `oz`).  Without that proviso
idempotence fails, because the replacement passes run in the order
`fl oz` before `ounces?`: a first pass can manufacture a fresh `fl oz`
occurrence (e.g. from `fl ounce`) that only a second pass rewrites. -/
theorem normalizeName_idempotent (value : String)
    (h : hasFlOz (normalizeName value).toList = false) :
    normalizeName (normalizeName value) = normalizeName value := by
  have h' : hasMatch flOzMatch (normalizeNameL value.toList) = false := h
  show (normalizeNameL (normalizeNameL value.toList)).asString =
    (normalizeNameL value.toList).asString
  rw [normalizeNameL_idem _ h']

/-- C4 counterexample: normalizing `"fl ounce"` yields `"fl oz"`, and
normalizing again yields `"oz"`, so `normalizeName` is not idempotent as
claimed. -/
theorem normalizeName_not_idempotent_cex :
    normalizeName "fl ounce" = "fl oz" ∧
    normalizeName (normalizeName "fl ounce") = "oz" ∧
    normalizeName (normalizeName "fl ounce") ≠ normalizeName "fl ounce" := by
  refine ⟨?_, ?_, ?_⟩ <;> decide

/-- C4 witness: a concrete product name satisfying the amended
hypothesis, on which normalization is indeed idempotent. -/
theorem normalizeName_idempotent_witness :
    hasFlOz (normalizeName "Diet Coke 12 fl. oz!").toList = false ∧
    normalizeName (normalizeName "Diet Coke 12 fl. oz!") =
      normalizeName "Diet Coke 12 fl. oz!" :=
  ⟨by decide, normalizeName_idempotent "Diet Coke 12 fl. oz!" (by decide)⟩

end VendHub
